import Mathlib

/-!
The tm-db TiKV adapter: shallow embedding and verification.

The development embeds `tikvdb.go`, `tikvdb_iterator.go`, `tikvdb_batch.go` and
`util.go`.  Byte slices are lists of bytes, `nil` bounds are `Option`, a mutating
method returns the updated receiver, and a Go panic is the `Res.panic` outcome.
The TiKV client itself is an external collaborator: it is modelled as a sorted
key-value store with snapshot cursors, and the errors it may report are inputs.
-/

namespace TmDb

/-! ## Bytes and their order -/

/-- One byte. -/
abbrev Byte := Fin 256

/-- A Go byte slice (or string) as a list of bytes; the empty list also stands for
`nil` wherever Go does not tell the two apart. -/
abbrev Bytes := List Byte

/-- Go `bytes.Compare`: byte-lexicographic three-way comparison. -/
def bytesCompare : Bytes → Bytes → Ordering
  | [], [] => Ordering.eq
  | [], _ :: _ => Ordering.lt
  | _ :: _, [] => Ordering.gt
  | a :: as, b :: bs =>
    if a < b then Ordering.lt
    else if b < a then Ordering.gt
    else bytesCompare as bs

/-- Test `bytes.Compare(a, b) < 0`. -/
def bytesLt (a b : Bytes) : Bool :=
  match bytesCompare a b with
  | Ordering.lt => true
  | _ => false

/-- Test `bytes.Compare(a, b) <= 0`. -/
def bytesLe (a b : Bytes) : Bool :=
  match bytesCompare a b with
  | Ordering.gt => false
  | _ => true

/-- Go `bytes.HasPrefix(s, p)`. -/
def hasPrefix : Bytes → Bytes → Bool
  | _, [] => true
  | [], _ :: _ => false
  | a :: as, b :: bs => a == b && hasPrefix as bs

/-- `cp` of `util.go`: a fresh copy of the slice (the same bytes). -/
def cp (bz : Bytes) : Bytes := bz

/-- The byte `/`. -/
def slash : Byte := 47

/-- The byte `-`. -/
def dash : Byte := 45

/-- The bytes of the string `"~"`, the `endKey` of the iterator constructor. -/
def endKey : Bytes := [126]

/-- The bytes of the string `"/tikv.state"`. -/
def stateSuffix : Bytes := [47, 116, 105, 107, 118, 46, 115, 116, 97, 116, 101]

/-! ## The backend -/

/-- Errors that operations return. `backend` carries the code of a failure
reported by the TiKV client; `notFound` is the client's answer to a read of an
absent key (the one `tikverr.IsErrNotFound` recognises); `cannotSetNilValue` is its
answer to a write of a value of length zero. -/
inductive Error where
  | keyEmpty
  | inUse
  | notFound
  | invalidKey
  | cannotSetNilValue
  | backend (code : Nat)
  deriving DecidableEq, Repr

/-- One stored record: physical key and value. -/
abbrev Entry := Bytes × Bytes

/-- The committed contents of the shared keyspace, in ascending key order. -/
abbrev Store := List Entry

/-- Well-formed stores hold their keys in strictly ascending byte order. -/
def StoreSorted (s : Store) : Prop :=
  s.Pairwise (fun x y => bytesLt x.1 y.1 = true)

instance (s : Store) : Decidable (StoreSorted s) := by
  unfold StoreSorted; infer_instance

/-- Modelled from the spec: the value the backend holds for a physical key. -/
def Store.lookup : Store → Bytes → Option Bytes
  | [], _ => none
  | (k, v) :: rest, key => if k = key then some v else Store.lookup rest key

/-- Modelled from the spec: the backend keeps keys sorted, so a write replaces the
record of the key or inserts it at its place in the order. -/
def Store.put : Store → Bytes → Bytes → Store
  | [], key, value => [(key, value)]
  | (k, v) :: rest, key, value =>
    match bytesCompare key k with
    | Ordering.lt => (key, value) :: (k, v) :: rest
    | Ordering.eq => (key, value) :: rest
    | Ordering.gt => (k, v) :: Store.put rest key value

/-- Modelled from the spec: removal of a physical key from the backend. -/
def Store.remove (s : Store) (key : Bytes) : Store :=
  s.filter (fun e => !(e.1 == key))

/-- A buffered mutation of a transaction: `none` is a deletion. -/
abbrev Mutation := Bytes × Option Bytes

/-- Apply one mutation to the store. -/
def Store.apply (s : Store) (m : Mutation) : Store :=
  match m.2 with
  | some v => s.put m.1 v
  | none => s.remove m.1

/-- Modelled from the spec: the backend client. `store` is the committed data
and `begun` counts the transactions begun on it. -/
structure Client where
  store : Store
  begun : Nat
  deriving DecidableEq, Repr

/-- Modelled from the spec: a backend transaction, a snapshot taken at `Begin`
plus the mutations buffered since. -/
structure KVTxn where
  snapshot : Store
  buffer : List Mutation
  deriving DecidableEq, Repr

/-- The failures the backend reports during one adapter operation: at `Begin`,
at the n-th data call of the transaction, and at `Commit`. A code `none` means
that the call succeeds. -/
structure Faults where
  atBegin : Option Nat
  atCall : Nat → Option Nat
  atCommit : Option Nat

/-- The backend does not fail. -/
def noFaults : Faults := ⟨none, fun _ => none, none⟩

/-- Modelled from the spec: `Client.Begin`. -/
def Client.Begin (c : Client) (f : Faults) : Client × Except Error KVTxn :=
  match f.atBegin with
  | some code => (c, Except.error (Error.backend code))
  | none => ({ c with begun := c.begun + 1 }, Except.ok ⟨c.store, []⟩)

/-- Modelled from the spec: `KVTxn.Get`; an absent key is reported by the
not-found error. -/
def KVTxn.Get (txn : KVTxn) (fault : Option Nat) (key : Bytes) : Option Bytes × Option Error :=
  match fault with
  | some code => (none, some (Error.backend code))
  | none =>
    match (txn.buffer.foldl Store.apply txn.snapshot).lookup key with
    | some v => (some v, none)
    | none => (none, some Error.notFound)

/-- Modelled from the spec: `KVTxn.Set` buffers a write; the client refuses a value
of length zero with its cannot-set-nil-value error and buffers nothing. -/
def KVTxn.Set (txn : KVTxn) (fault : Option Nat) (key value : Bytes) : KVTxn × Option Error :=
  match fault with
  | some code => (txn, some (Error.backend code))
  | none =>
    if value.length = 0 then (txn, some Error.cannotSetNilValue)
    else ({ txn with buffer := txn.buffer ++ [(key, some value)] }, none)

/-- Modelled from the spec: `KVTxn.Delete` buffers a removal. -/
def KVTxn.Delete (txn : KVTxn) (fault : Option Nat) (key : Bytes) : KVTxn × Option Error :=
  match fault with
  | some code => (txn, some (Error.backend code))
  | none => ({ txn with buffer := txn.buffer ++ [(key, none)] }, none)

/-- Modelled from the spec: `KVTxn.Commit` applies the buffered mutations in
order, or none of them when the commit fails. -/
def KVTxn.Commit (txn : KVTxn) (fault : Option Nat) (c : Client) : Client × Option Error :=
  match fault with
  | some code => (c, some (Error.backend code))
  | none => ({ c with store := txn.buffer.foldl Store.apply c.store }, none)

/-! ## The database facade (`tikvdb.go`) -/

/-- The Go struct `TikvDB`; the client handle is the `Client` state that every
operation takes and returns. -/
structure TikvDB where
  name : Bytes
  dir : Bytes
  deriving DecidableEq, Repr

/-- Method `tikvStoreKeyPrefix`: the string `dir/name/`. -/
def TikvDB.tikvStoreKeyPrefix (t : TikvDB) : Bytes :=
  t.dir ++ [slash] ++ t.name ++ [slash]

/-- Method `getTikvKey` of the database: the namespace bytes followed by the key. -/
def TikvDB.getTikvKey (t : TikvDB) (key : Bytes) : Bytes :=
  t.tikvStoreKeyPrefix ++ key

/-- Method `getTikvState`: the string `dir-name/tikv.state`. -/
def TikvDB.getTikvState (t : TikvDB) : Bytes :=
  t.dir ++ [dash] ++ t.name ++ stateSuffix

/-- Method `Get`: begin, read the physical key, commit on return (deferred, its
error dropped); any error of the read is returned with a nil value. -/
def TikvDB.Get (t : TikvDB) (f : Faults) (c : Client) (key : Bytes) :
    Client × (Option Bytes × Option Error) :=
  match c.Begin f with
  | (c1, Except.error e) => (c1, (none, some e))
  | (c1, Except.ok txn) =>
    let r := txn.Get (f.atCall 0) (t.getTikvKey key)
    let c2 := (txn.Commit f.atCommit c1).1
    match r.2 with
    | some e => (c2, (none, some e))
    | none => (c2, (r.1, none))

/-- Method `Has`: as `Get`, with the not-found error turned into `false`. -/
def TikvDB.Has (t : TikvDB) (f : Faults) (c : Client) (key : Bytes) :
    Client × (Bool × Option Error) :=
  match c.Begin f with
  | (c1, Except.error e) => (c1, (false, some e))
  | (c1, Except.ok txn) =>
    let r := txn.Get (f.atCall 0) (t.getTikvKey key)
    let c2 := (txn.Commit f.atCommit c1).1
    match r.2 with
    | none => (c2, (true, none))
    | some e => if e = Error.notFound then (c2, (false, none)) else (c2, (false, some e))

/-- Method `Set`: begin, buffer the write, commit on return (deferred, its error
dropped); the result is the error of the buffered write. -/
def TikvDB.Set (t : TikvDB) (f : Faults) (c : Client) (key value : Bytes) :
    Client × Option Error :=
  match c.Begin f with
  | (c1, Except.error e) => (c1, some e)
  | (c1, Except.ok txn) =>
    let r := txn.Set (f.atCall 0) (t.getTikvKey key) value
    let c2 := (r.1.Commit f.atCommit c1).1
    (c2, r.2)

/-- Method `SetSync`: begin, buffer the write, commit; the result is the error of
the commit (the error of the write is overwritten). -/
def TikvDB.SetSync (t : TikvDB) (f : Faults) (c : Client) (key value : Bytes) :
    Client × Option Error :=
  match c.Begin f with
  | (c1, Except.error e) => (c1, some e)
  | (c1, Except.ok txn) =>
    let r := txn.Set (f.atCall 0) (t.getTikvKey key) value
    r.1.Commit f.atCommit c1

/-- Method `Delete`: begin, buffer the removal, commit on return (deferred). -/
def TikvDB.Delete (t : TikvDB) (f : Faults) (c : Client) (key : Bytes) :
    Client × Option Error :=
  match c.Begin f with
  | (c1, Except.error e) => (c1, some e)
  | (c1, Except.ok txn) =>
    let r := txn.Delete (f.atCall 0) (t.getTikvKey key)
    let c2 := (r.1.Commit f.atCommit c1).1
    (c2, r.2)

/-- Method `DeleteSync`: begin, buffer the removal, commit; the result is the
error of the commit. -/
def TikvDB.DeleteSync (t : TikvDB) (f : Faults) (c : Client) (key : Bytes) :
    Client × Option Error :=
  match c.Begin f with
  | (c1, Except.error e) => (c1, some e)
  | (c1, Except.ok txn) =>
    let r := txn.Delete (f.atCall 0) (t.getTikvKey key)
    r.1.Commit f.atCommit c1

/-- The failures of the three operations that `NewTikvDBWithOpts` and `Close`
issue: connecting, the sentinel check, the sentinel write or removal. -/
structure OpenFaults where
  atConnect : Option Nat
  atHas : Faults
  atSync : Faults

/-- Function `NewTikvDBWithOpts`: connect, fail when the sentinel is present,
else write it synchronously. -/
def NewTikvDBWithOpts (name dir : Bytes) (f : OpenFaults) (c : Client) :
    Client × Except Error TikvDB :=
  match f.atConnect with
  | some code => (c, Except.error (Error.backend code))
  | none =>
    let database : TikvDB := ⟨name, dir⟩
    match database.Has f.atHas c database.getTikvState with
    | (c1, (_, some e)) => (c1, Except.error e)
    | (c1, (true, none)) => (c1, Except.error Error.inUse)
    | (c1, (false, none)) =>
      match database.SetSync f.atSync c1 database.getTikvState [49] with
      | (c2, some e) => (c2, Except.error e)
      | (c2, none) => (c2, Except.ok database)

/-- Method `Close` of the database: remove the sentinel synchronously, then close
the client handle (whose result `atConnect` gives). -/
def TikvDB.Close (t : TikvDB) (f : OpenFaults) (c : Client) : Client × Option Error :=
  match t.DeleteSync f.atSync c t.getTikvState with
  | (c1, some e) => (c1, some e)
  | (c1, none) => (c1, f.atConnect.map Error.backend)

/-! ## The backend cursor -/

/-- Modelled from the spec: a native backend cursor (`tikv.Iterator`), the records
still to be visited with the current one first. -/
structure Source where
  items : List Entry
  deriving DecidableEq, Repr

/-- The cursor stands on a record. -/
def Source.Valid (s : Source) : Bool := !s.items.isEmpty

/-- Key of the current record; nil (empty) once the cursor is exhausted. -/
def Source.Key (s : Source) : Bytes :=
  match s.items with
  | [] => []
  | e :: _ => e.1

/-- Value of the current record; nil (empty) once the cursor is exhausted. -/
def Source.Value (s : Source) : Bytes :=
  match s.items with
  | [] => []
  | e :: _ => e.2

/-- Step to the following record; the modelled backend reports no error here. -/
def Source.Next (s : Source) : Option Error × Source :=
  (none, ⟨s.items.tail⟩)

/-- What the transaction sees: its snapshot with its own buffered mutations. -/
def KVTxn.view (txn : KVTxn) : Store :=
  txn.buffer.foldl Store.apply txn.snapshot

/-- Modelled from the spec: `KVTxn.Iter(k, upperBound)`, the ascending cursor over
the keys `k <= key < upperBound` (both bounds are non-empty in every use). -/
def KVTxn.Iter (txn : KVTxn) (fault : Option Nat) (k upperBound : Bytes) : Except Error Source :=
  match fault with
  | some code => Except.error (Error.backend code)
  | none => Except.ok ⟨txn.view.filter (fun e => bytesLe k e.1 && bytesLt e.1 upperBound)⟩

/-- Modelled from the spec: `KVTxn.IterReverse(k)`, the descending cursor that
starts at the greatest key below `k` and has no lower bound. -/
def KVTxn.IterReverse (txn : KVTxn) (fault : Option Nat) (k : Bytes) : Except Error Source :=
  match fault with
  | some code => Except.error (Error.backend code)
  | none => Except.ok ⟨(txn.view.filter (fun e => bytesLt e.1 k)).reverse⟩

/-! ## The range iterator (`tikvdb_iterator.go`) -/

/-- Outcome of a call that may panic; `outOfFuel` is the outcome of a bounded
unrolling that was given too few steps. -/
inductive Res (α : Type) where
  | ok (a : α)
  | panic
  | outOfFuel
  deriving DecidableEq, Repr

/-- The Go struct `tikvDBIterator` (the field `prefix` is `pfx`, `end` is `end_`). -/
structure tikvDBIterator where
  source : Source
  pfx : Bytes
  start : Option Bytes
  end_ : Option Bytes
  isReverse : Bool
  isValid : Bool
  err : Option Error
  deriving DecidableEq, Repr

/-- Method `getTikvKey` of the iterator: `append(cp(itr.prefix), key...)`. -/
def tikvDBIterator.getTikvKey (itr : tikvDBIterator) (key : Bytes) : Bytes :=
  cp itr.pfx ++ key

/-- Function `newTikvDBIterator`. -/
def newTikvDBIterator (txn : KVTxn) (f : Faults) (pfx : Bytes) (start end_ : Option Bytes)
    (isReverse : Bool) : Except Error tikvDBIterator :=
  let iterator : tikvDBIterator := ⟨⟨[]⟩, pfx, start, end_, isReverse, true, none⟩
  if isReverse then
    match end_ with
    | none =>
      match txn.IterReverse (f.atCall 0) (iterator.getTikvKey endKey) with
      | Except.error e => Except.error e
      | Except.ok source => Except.ok { iterator with source := source }
    | some e =>
      match txn.IterReverse (f.atCall 0) (iterator.getTikvKey e) with
      | Except.error e => Except.error e
      | Except.ok source =>
        if !source.Valid then
          match txn.IterReverse (f.atCall 1) (iterator.getTikvKey endKey) with
          | Except.error e => Except.error e
          | Except.ok source => Except.ok { iterator with source := source }
        else Except.ok { iterator with source := source }
  else
    match start with
    | none =>
      match txn.Iter (f.atCall 0) pfx (iterator.getTikvKey endKey) with
      | Except.error e => Except.error e
      | Except.ok source => Except.ok { iterator with source := source }
    | some s =>
      match txn.Iter (f.atCall 0) (iterator.getTikvKey s) (iterator.getTikvKey endKey) with
      | Except.error e => Except.error e
      | Except.ok source => Except.ok { iterator with source := source }

/-- Method `Domain`. -/
def tikvDBIterator.Domain (itr : tikvDBIterator) : Option Bytes × Option Bytes :=
  (itr.start, itr.end_)

/-- The first test of `Valid`: the limit of `start` (reverse) or of `end`
(forward) has been reached by the current backend key. -/
def tikvDBIterator.pastLimit (itr : tikvDBIterator) : Bool :=
  if itr.isReverse then
    match itr.start with
    | some start => bytesLt itr.source.Key (itr.getTikvKey start)
    | none => false
  else
    match itr.end_ with
    | some e => bytesLe (itr.getTikvKey e) itr.source.Key
    | none => false

/-- The last test of `Valid`: the current backend key is shorter than the
namespace bytes or does not start with them. -/
def tikvDBIterator.outOfScope (itr : tikvDBIterator) : Bool :=
  itr.source.Key.length < itr.pfx.length ||
    !(itr.source.Key.take itr.pfx.length == itr.pfx)

/-- Method `Valid`: the answer and the iterator as the call leaves it. -/
def tikvDBIterator.Valid (itr : tikvDBIterator) : Bool × tikvDBIterator :=
  if itr.pastLimit then (false, { itr with isValid := false })
  else if !itr.isValid || itr.err.isSome || !itr.source.Valid then (false, itr)
  else if itr.outOfScope then
    (false, { itr with isValid := false, err := some Error.invalidKey })
  else (true, itr)

/-- Method `Next`, unrolled at most `fuel` times: the call itself and the calls it
makes on itself when the cursor lands on the key equal to the namespace bytes. -/
def tikvDBIterator.NextN : Nat → tikvDBIterator → Res tikvDBIterator
  | 0, _ => Res.outOfFuel
  | fuel + 1, itr =>
    match itr.Valid with
    | (false, _) => Res.panic
    | (true, itr1) =>
      let r := itr1.source.Next
      let itr2 : tikvDBIterator :=
        match r.1 with
        | some e => { itr1 with source := r.2, err := some e }
        | none => { itr1 with source := r.2 }
      if !itr2.source.Valid || !hasPrefix itr2.source.Key itr2.pfx then
        Res.ok { itr2 with isValid := false }
      else if itr2.source.Key == itr2.pfx then
        tikvDBIterator.NextN fuel itr2
      else Res.ok itr2

/-- Method `Next`: every nested call consumes a record of the cursor, so one more
unrolling than there are records left is enough. -/
def tikvDBIterator.Next (itr : tikvDBIterator) : Res tikvDBIterator :=
  tikvDBIterator.NextN (itr.source.items.length + 1) itr

/-- Method `Key`: panics on an invalid cursor, else a copy of the backend key. -/
def tikvDBIterator.Key (itr : tikvDBIterator) : Res Bytes :=
  match itr.Valid with
  | (false, _) => Res.panic
  | (true, itr1) => Res.ok (cp itr1.source.Key)

/-- Method `Value`: panics on an invalid cursor, else a copy of the value. -/
def tikvDBIterator.Value (itr : tikvDBIterator) : Res Bytes :=
  match itr.Valid with
  | (false, _) => Res.panic
  | (true, itr1) => Res.ok (cp itr1.source.Value)

/-- Method `Error`. -/
def tikvDBIterator.Error (itr : tikvDBIterator) : Option Error := itr.err

/-- The caller's loop `for ; itr.Valid(); itr.Next() { itr.Key() }` of the tests,
run for at most `fuel` rounds: the keys it reads, in order. -/
def walk : Nat → tikvDBIterator → Res (List Bytes)
  | 0, _ => Res.outOfFuel
  | fuel + 1, itr =>
    match itr.Valid with
    | (false, _) => Res.ok []
    | (true, itr1) =>
      match itr1.Key with
      | Res.ok key =>
        match itr1.Next with
        | Res.ok itr2 =>
          match walk fuel itr2 with
          | Res.ok keys => Res.ok (key :: keys)
          | Res.panic => Res.panic
          | Res.outOfFuel => Res.outOfFuel
        | Res.panic => Res.panic
        | Res.outOfFuel => Res.outOfFuel
      | Res.panic => Res.panic
      | Res.outOfFuel => Res.outOfFuel

/-- The caller's loop run to its end: each round consumes a record of the cursor. -/
def collect (itr : tikvDBIterator) : Res (List Bytes) :=
  walk (itr.source.items.length + 1) itr

/-- A bound is a non-nil slice of length zero. -/
def isEmptyBound (b : Option Bytes) : Bool :=
  match b with
  | some bz => bz.length == 0
  | none => false

/-- Method `Iterator` of the database. -/
def TikvDB.Iterator (t : TikvDB) (f : Faults) (c : Client) (start end_ : Option Bytes) :
    Client × Except Error tikvDBIterator :=
  if isEmptyBound start || isEmptyBound end_ then (c, Except.error Error.keyEmpty)
  else
    match c.Begin f with
    | (c1, Except.error e) => (c1, Except.error e)
    | (c1, Except.ok txn) =>
      let r := newTikvDBIterator txn f t.tikvStoreKeyPrefix start end_ false
      ((txn.Commit f.atCommit c1).1, r)

/-- Method `ReverseIterator` of the database. -/
def TikvDB.ReverseIterator (t : TikvDB) (f : Faults) (c : Client) (start end_ : Option Bytes) :
    Client × Except Error tikvDBIterator :=
  if isEmptyBound start || isEmptyBound end_ then (c, Except.error Error.keyEmpty)
  else
    match c.Begin f with
    | (c1, Except.error e) => (c1, Except.error e)
    | (c1, Except.ok txn) =>
      let r := newTikvDBIterator txn f t.tikvStoreKeyPrefix start end_ true
      ((txn.Commit f.atCommit c1).1, r)

/-! ## The write batch (`tikvdb_batch.go`) -/

/-- The Go struct `keyvalue`: a key-value tuple tagged with a deletion field. -/
structure keyvalue where
  key : Bytes
  value : Bytes
  delete : Bool
  deriving DecidableEq, Repr

/-- The Go struct `tikvDBBatch`. -/
structure tikvDBBatch where
  db : TikvDB
  writes : List keyvalue
  pfx : Bytes
  deriving DecidableEq, Repr

/-- Function `newTikvDBBatch`. -/
def newTikvDBBatch (db : TikvDB) (pfx : Bytes) : tikvDBBatch :=
  ⟨db, [], pfx⟩

/-- Method `NewBatch` of the database. -/
def TikvDB.NewBatch (t : TikvDB) : tikvDBBatch :=
  newTikvDBBatch t t.tikvStoreKeyPrefix

/-- Method `Set` of the batch: appends the write under its physical key. -/
def tikvDBBatch.Set (b : tikvDBBatch) (key value : Bytes) : tikvDBBatch × Option Error :=
  ({ b with writes := b.writes ++ [⟨b.db.getTikvKey key, value, false⟩] }, none)

/-- Method `Delete` of the batch: appends the removal under its physical key. -/
def tikvDBBatch.Delete (b : tikvDBBatch) (key : Bytes) : tikvDBBatch × Option Error :=
  ({ b with writes := b.writes ++ [⟨b.db.getTikvKey key, [], true⟩] }, none)

/-- The loop of `write` over the pending log, from the `i`-th data call on: it
stops at the first call that the backend fails. -/
def replay (f : Faults) : List keyvalue → Nat → KVTxn → KVTxn × Option Error
  | [], _, txn => (txn, none)
  | kv :: rest, i, txn =>
    if kv.delete then
      match txn.Delete (f.atCall i) kv.key with
      | (_, some e) => (txn, some e)
      | (txn1, none) => replay f rest (i + 1) txn1
    else
      match txn.Set (f.atCall i) kv.key kv.value with
      | (_, some e) => (txn, some e)
      | (txn1, none) => replay f rest (i + 1) txn1

/-- Method `write`: one transaction, the log replayed in order, one commit; an
error of a replayed call returns at once, without a commit. -/
def tikvDBBatch.write (b : tikvDBBatch) (f : Faults) (c : Client) (_sync : Bool) :
    Client × Option Error :=
  match c.Begin f with
  | (c1, Except.error e) => (c1, some e)
  | (c1, Except.ok txn) =>
    match replay f b.writes 0 txn with
    | (_, some e) => (c1, some e)
    | (txn1, none) => txn1.Commit f.atCommit c1

/-- Method `Write`. -/
def tikvDBBatch.Write (b : tikvDBBatch) (f : Faults) (c : Client) : Client × Option Error :=
  b.write f c false

/-- Method `WriteSync`. -/
def tikvDBBatch.WriteSync (b : tikvDBBatch) (f : Faults) (c : Client) : Client × Option Error :=
  b.write f c true

/-- Method `Close` of the batch: `b.writes = b.writes[:0]`. -/
def tikvDBBatch.Close (b : tikvDBBatch) : tikvDBBatch × Option Error :=
  ({ b with writes := b.writes.take 0 }, none)

/-! ## Reference behaviour of a batch write -/

/-- The last operation that a log holds on a physical key, if any: the log is
scanned in append order and a later operation replaces an earlier one. -/
def lastOp (key : Bytes) (log : List keyvalue) : Option keyvalue :=
  log.foldl (fun acc kv => if kv.key = key then some kv else acc) none

/-- What a key holds once a log is replayed over a prior state: the value of the
last `Set` on it, nothing if the last operation on it is a `Delete`, and its
prior value when the log does not name it. -/
def expectedAfter (prior : Store) (log : List keyvalue) (key : Bytes) : Option Bytes :=
  match lastOp key log with
  | none => prior.lookup key
  | some kv => if kv.delete then none else some kv.value

/-- No failure while opening or closing a database. -/
def noOpenFaults : OpenFaults := ⟨none, noFaults, noFaults⟩

/-! ## Sample data -/

/-- The database of directory `a` and name `b`; its keys start with `a/b/`. -/
def sampleDB : TikvDB := ⟨[98], [97]⟩

/-- An empty backend on which no transaction was begun. -/
def emptyClient : Client := ⟨[], 0⟩

/-- The buffered mutation that replaying one batch record issues. -/
def keyvalue.toMutation (kv : keyvalue) : Mutation :=
  (kv.key, if kv.delete then none else some kv.value)

/-! ## Reference ranges -/

/-- The physical lower bound of a range: the namespace bytes followed by `start`,
or the namespace bytes alone when `start` is nil. -/
def lowerKey (pfx : Bytes) (start : Option Bytes) : Bytes :=
  match start with
  | some s => pfx ++ s
  | none => pfx

/-- The key lies below the physical `end` of a range; every key does when `end`
is nil. -/
def belowEnd (pfx : Bytes) (end_ : Option Bytes) (key : Bytes) : Bool :=
  match end_ with
  | some e => bytesLt key (pfx ++ e)
  | none => true

/-- The stored records that a forward iterator over `(start, end)` ranges over:
from the lower bound, below the namespace bytes followed by `~`, and below `end`. -/
def forwardRange (pfx : Bytes) (start end_ : Option Bytes) (s : Store) : Store :=
  s.filter (fun e =>
    bytesLe (lowerKey pfx start) e.1 && bytesLt e.1 (pfx ++ endKey) && belowEnd pfx end_ e.1)

/-- The physical origin of a reverse iterator: the namespace bytes followed by
`end`, or by `~` when `end` is nil. -/
def upperKey (pfx : Bytes) (end_ : Option Bytes) : Bytes :=
  match end_ with
  | some e => pfx ++ e
  | none => pfx ++ endKey

/-- The stored records between the lower bound and the origin of a reverse
iterator over `(start, end)`. -/
def reverseRange (pfx : Bytes) (start end_ : Option Bytes) (s : Store) : Store :=
  s.filter (fun e => bytesLe (lowerKey pfx start) e.1 && bytesLt e.1 (upperKey pfx end_))

/-- A backend that holds the keys `a/b/2`, `a/b/3`, `a/b/5` and `a/b/~`. -/
def sampleClient : Client :=
  ⟨[([97, 47, 98, 47, 2], [22]), ([97, 47, 98, 47, 3], [33]), ([97, 47, 98, 47, 5], [55]),
    ([97, 47, 98, 47, 126], [77])], 0⟩

/-- The keys that the caller's loop reads from the outcome of an iterator
constructor; a constructor error is reported as no outcome. -/
def collectFrom (r : Client × Except Error tikvDBIterator) : Option (Res (List Bytes)) :=
  match r.2 with
  | Except.ok itr => some (collect itr)
  | Except.error _ => none

/-- One operation on a batch: a `Set` of a value or, with `none`, a `Delete`. -/
abbrev BatchOp := Bytes × Option Bytes

/-- The batch that a database hands out with `NewBatch`, after the given `Set` and
`Delete` calls in order. -/
def buildBatch (t : TikvDB) (ops : List BatchOp) : tikvDBBatch :=
  ops.foldl (fun b op =>
    match op.2 with
    | some v => (b.Set op.1 v).1
    | none => (b.Delete op.1).1) t.NewBatch

/-- The database of directory `a` and name `c`; its keys start with `a/c/`. -/
def otherDB : TikvDB := ⟨[99], [97]⟩

/-- The database of directory `a` and name `b/c`; its keys start with `a/b/c/`. -/
def nestedNameDB : TikvDB := ⟨[98, 47, 99], [97]⟩

/-- The database of directory `a/b` and name `c`; its keys start with `a/b/c/`. -/
def nestedDirDB : TikvDB := ⟨[99], [97, 47, 98]⟩

/-- What `Valid()` answers and `Key()` returns on the cursor that an iterator
constructor hands out, before any `Next`; a constructor error is no outcome. -/
def firstKey (r : Client × Except Error tikvDBIterator) : Option (Bool × Res Bytes) :=
  match r.2 with
  | Except.ok itr => some (itr.Valid.1, itr.Key)
  | Except.error _ => none

/-- A backend whose data calls fail with the given code while `Begin` and `Commit`
succeed. -/
def dataCallFails (code : Nat) : Faults := ⟨none, fun _ => some code, none⟩

/-- A batch of the sample database that holds one `Set` of the key `[1]`. -/
def sampleBatch : tikvDBBatch := buildBatch sampleDB [([1], some [10])]

/-- The database of directory `a` and name `b-c`; its keys start with `a/b-c/`. -/
def dashNameDB : TikvDB := ⟨[98, 45, 99], [97]⟩

/-- What `Valid()` answers on the cursor that an iterator constructor hands out and
how a `Next()` that follows ends; a constructor error is no outcome. -/
def firstNext (r : Client × Except Error tikvDBIterator) :
    Option (Bool × Res tikvDBIterator) :=
  match r.2 with
  | Except.ok itr => some (itr.Valid.1, itr.Next)
  | Except.error _ => none

/-- A backend that holds the namespace key `a/b/` itself and the key `a/b/2`. -/
def namespaceKeyClient : Client :=
  ⟨[([97, 47, 98, 47], [9]), ([97, 47, 98, 47, 2], [22])], 0⟩

/-! ## Increment of a byte slice (`util.go`) -/

/-- The loop of `cpIncr` with `i + 1` indices still to visit: `ret[i]` is
incremented if it is below `0xFF`, else it is set to zero and the loop goes on to
the left; `none` is the `nil` that the function returns on overflow. -/
def cpIncrLoop (ret : Bytes) : Nat → Option Bytes
  | 0 => none
  | i + 1 =>
    if ret.getD i 0 < 255 then some (ret.set i (ret.getD i 0 + 1))
    else if i = 0 then none
    else cpIncrLoop (ret.set i 0) i

/-- Function `cpIncr`: panics on an empty slice, else runs the loop on a copy. -/
def cpIncr (bz : Bytes) : Res (Option Bytes) :=
  if bz.length = 0 then Res.panic
  else Res.ok (cpIncrLoop (cp bz) bz.length)

/-- A byte slice read as a big-endian unsigned integer. -/
def beValue (bz : Bytes) : Nat :=
  bz.foldl (fun acc b => acc * 256 + b.val) 0

/-- A backend that holds the keys `a/b/5` and `a/b/7`. -/
def highKeysClient : Client :=
  ⟨[([97, 47, 98, 47, 5], [55]), ([97, 47, 98, 47, 7], [77])], 0⟩

/-! ## Sequences of cursor calls -/

/-- One call that the holder of a cursor makes on it. -/
inductive Call where
  | valid
  | next
  | key
  | value
  deriving DecidableEq, Repr

/-- The iterator after a sequence of calls, or the panic that ends the sequence;
`Key` and `Value` change the iterator only through the `Valid` that they run. -/
def tikvDBIterator.run : List Call → tikvDBIterator → Res tikvDBIterator
  | [], itr => Res.ok itr
  | Call.valid :: rest, itr => tikvDBIterator.run rest itr.Valid.2
  | Call.next :: rest, itr =>
    match itr.Next with
    | Res.ok itr2 => tikvDBIterator.run rest itr2
    | Res.panic => Res.panic
    | Res.outOfFuel => Res.outOfFuel
  | Call.key :: rest, itr =>
    if itr.Valid.1 then tikvDBIterator.run rest itr.Valid.2 else Res.panic
  | Call.value :: rest, itr =>
    if itr.Valid.1 then tikvDBIterator.run rest itr.Valid.2 else Res.panic

theorem bytesCompare_eq_iff (a b : Bytes) : bytesCompare a b = Ordering.eq ↔ a = b := by
  induction a generalizing b with
  | nil => cases b <;> simp [bytesCompare]
  | cons x xs ih =>
    cases b with
    | nil => simp [bytesCompare]
    | cons y ys =>
      simp only [bytesCompare]
      by_cases h1 : x < y
      · simp [h1, ne_of_lt h1]
      · by_cases h2 : y < x
        · simp [h1, h2, (ne_of_lt h2).symm]
        · have : x = y := le_antisymm (not_lt.mp h2) (not_lt.mp h1)
          simp [h1, h2, this, ih]

theorem bytesCompare_refl (a : Bytes) : bytesCompare a a = Ordering.eq :=
  (bytesCompare_eq_iff a a).mpr rfl

theorem bytesCompare_gt_iff (a b : Bytes) :
    bytesCompare a b = Ordering.gt ↔ bytesCompare b a = Ordering.lt := by
  induction a generalizing b with
  | nil => cases b <;> simp [bytesCompare]
  | cons x xs ih =>
    cases b with
    | nil => simp [bytesCompare]
    | cons y ys =>
      simp only [bytesCompare]
      by_cases h1 : x < y
      · simp [h1, lt_asymm h1]
      · by_cases h2 : y < x
        · simp [h1, h2]
        · simp [h1, h2, ih]

theorem bytesLt_iff (a b : Bytes) : bytesLt a b = true ↔ bytesCompare a b = Ordering.lt := by
  unfold bytesLt; cases bytesCompare a b <;> simp

theorem bytesLt_irrefl (a : Bytes) : bytesLt a a = false := by
  simp [bytesLt, bytesCompare_refl]

theorem bytesLe_eq_not_lt (a b : Bytes) : bytesLe a b = !bytesLt b a := by
  unfold bytesLe bytesLt
  cases h : bytesCompare a b
  · have h2 := (bytesCompare_gt_iff b a).mpr h
    simp [h2]
  · have : b = a := ((bytesCompare_eq_iff a b).mp h).symm
    simp [this, bytesCompare_refl]
  · have := (bytesCompare_gt_iff a b).mp h
    simp [this]

theorem bytesCompare_lt_trans {a b c : Bytes} (h1 : bytesCompare a b = Ordering.lt)
    (h2 : bytesCompare b c = Ordering.lt) : bytesCompare a c = Ordering.lt := by
  induction a generalizing b c with
  | nil =>
    cases b with
    | nil => simp [bytesCompare] at h1
    | cons y ys =>
      cases c with
      | nil => simp [bytesCompare] at h2
      | cons z zs => simp [bytesCompare]
  | cons x xs ih =>
    cases b with
    | nil => simp [bytesCompare] at h1
    | cons y ys =>
      cases c with
      | nil => simp [bytesCompare] at h2
      | cons z zs =>
        simp only [bytesCompare] at *
        by_cases hxy : x < y
        · by_cases hyz : y < z
          · simp [lt_trans hxy hyz]
          · by_cases hzy : z < y
            · simp [hyz, hzy] at h2
            · have : y = z := le_antisymm (not_lt.mp hzy) (not_lt.mp hyz)
              subst this; simp [hxy]
        · by_cases hyx : y < x
          · simp [hxy, hyx] at h1
          · have : x = y := le_antisymm (not_lt.mp hyx) (not_lt.mp hxy)
            subst this
            by_cases hxz : x < z
            · simp [hxz]
            · by_cases hzx : z < x
              · simp [hxz, hzx] at h2
              · simp only [hxy, hxz, hzx, if_false] at h1 h2 ⊢
                exact ih h1 h2

theorem bytesLt_trans {a b c : Bytes} (h1 : bytesLt a b = true) (h2 : bytesLt b c = true) :
    bytesLt a c = true := by
  rw [bytesLt_iff] at *; exact bytesCompare_lt_trans h1 h2

theorem bytesLe_refl (a : Bytes) : bytesLe a a = true := by
  simp [bytesLe_eq_not_lt, bytesLt_irrefl]

theorem bytesLt_of_le_of_lt {a b c : Bytes} (h1 : bytesLe a b = true) (h2 : bytesLt b c = true) :
    bytesLt a c = true := by
  by_cases hab : a = b
  · subst hab; exact h2
  · apply bytesLt_trans _ h2
    rw [bytesLe_eq_not_lt] at h1
    rw [bytesLt_iff]
    cases h : bytesCompare a b
    · rfl
    · exact absurd ((bytesCompare_eq_iff a b).mp h) hab
    · have := (bytesLt_iff b a).mpr ((bytesCompare_gt_iff a b).mp h)
      simp [this] at h1

theorem bytesLt_of_lt_of_le {a b c : Bytes} (h1 : bytesLt a b = true) (h2 : bytesLe b c = true) :
    bytesLt a c = true := by
  by_cases hbc : b = c
  · subst hbc; exact h1
  · apply bytesLt_trans h1
    rw [bytesLe_eq_not_lt] at h2
    rw [bytesLt_iff]
    cases h : bytesCompare b c
    · rfl
    · exact absurd ((bytesCompare_eq_iff b c).mp h) hbc
    · have := (bytesLt_iff c b).mpr ((bytesCompare_gt_iff b c).mp h)
      simp [this] at h2

theorem bytesLe_trans {a b c : Bytes} (h1 : bytesLe a b = true) (h2 : bytesLe b c = true) :
    bytesLe a c = true := by
  rw [bytesLe_eq_not_lt] at h2 ⊢
  cases h : bytesLt c a
  · rfl
  · have := bytesLt_of_lt_of_le h h1
    simp [this] at h2

theorem bytesLt_asymm {a b : Bytes} (h : bytesLt a b = true) : bytesLt b a = false := by
  cases h2 : bytesLt b a
  · rfl
  · have := bytesLt_trans h h2
    simp [bytesLt_irrefl] at this

theorem bytesLe_of_lt {a b : Bytes} (h : bytesLt a b = true) : bytesLe a b = true := by
  rw [bytesLe_eq_not_lt, bytesLt_asymm h]; rfl

theorem bytesCompare_append_left (p a b : Bytes) :
    bytesCompare (p ++ a) (p ++ b) = bytesCompare a b := by
  induction p with
  | nil => rfl
  | cons x xs ih => simp [bytesCompare, ih]

theorem bytesLt_append_left (p a b : Bytes) : bytesLt (p ++ a) (p ++ b) = bytesLt a b := by
  simp [bytesLt, bytesCompare_append_left]

theorem bytesLe_append_left (p a b : Bytes) : bytesLe (p ++ a) (p ++ b) = bytesLe a b := by
  simp [bytesLe, bytesCompare_append_left]

theorem bytesLe_nil (a : Bytes) : bytesLe [] a = true := by
  cases a <;> simp [bytesLe, bytesCompare]

theorem bytesLe_append_self (p a : Bytes) : bytesLe p (p ++ a) = true := by
  have := bytesLe_append_left p [] a
  simpa [bytesLe_nil] using this

theorem bytesLt_append_self (p a : Bytes) (h : a ≠ []) : bytesLt p (p ++ a) = true := by
  have := bytesLt_append_left p [] a
  rw [List.append_nil] at this
  rw [this]
  cases a with
  | nil => exact absurd rfl h
  | cons x xs => simp [bytesLt, bytesCompare]

theorem hasPrefix_iff (s p : Bytes) : hasPrefix s p = true ↔ p <+: s := by
  induction p generalizing s with
  | nil => simp [hasPrefix]
  | cons x xs ih =>
    cases s with
    | nil => simp [hasPrefix]
    | cons y ys =>
      rw [hasPrefix, List.cons_prefix_cons, Bool.and_eq_true, ih, beq_iff_eq]
      exact and_congr_left fun _ => eq_comm

/-- A key between the namespace bytes and an extension of them carries them. -/
theorem prefix_of_between (p u k : Bytes) (h1 : bytesLe p k = true)
    (h2 : bytesLt k (p ++ u) = true) : p <+: k := by
  induction p generalizing k with
  | nil => exact List.nil_prefix
  | cons x xs ih =>
    cases k with
    | nil => simp [bytesLe, bytesCompare] at h1
    | cons y ys =>
      simp only [bytesLe, bytesLt, bytesCompare, List.cons_append] at h1 h2
      by_cases hxy : x < y
      · simp [hxy, lt_asymm hxy] at h2
      · by_cases hyx : y < x
        · simp [hxy, hyx] at h1
        · have : x = y := le_antisymm (not_lt.mp hyx) (not_lt.mp hxy)
          subst this
          simp only [hxy, if_false] at h1 h2
          rw [List.cons_prefix_cons]
          exact ⟨rfl, ih ys h1 h2⟩

theorem bytesLe_of_isPrefix {p k : Bytes} (h : p <+: k) : bytesLe p k = true := by
  obtain ⟨t, rfl⟩ := h
  exact bytesLe_append_self p t

/-! ## The store -/

theorem lookup_put_self (s : Store) (k v : Bytes) : (s.put k v).lookup k = some v := by
  induction s with
  | nil => simp [Store.put, Store.lookup]
  | cons e rest ih =>
    obtain ⟨k0, v0⟩ := e
    simp only [Store.put]
    cases h : bytesCompare k k0
    · simp [Store.lookup]
    · simp [Store.lookup]
    · have hne : k0 ≠ k := fun heq => by
        subst heq; rw [bytesCompare_refl] at h; cases h
      simp [Store.lookup, hne, ih]

theorem lookup_put_other (s : Store) (k v k2 : Bytes) (hne : k2 ≠ k) :
    (s.put k v).lookup k2 = s.lookup k2 := by
  induction s with
  | nil => simp [Store.put, Store.lookup, hne.symm]
  | cons e rest ih =>
    obtain ⟨k0, v0⟩ := e
    simp only [Store.put]
    cases h : bytesCompare k k0
    · simp [Store.lookup, hne.symm]
    · have : k = k0 := (bytesCompare_eq_iff k k0).mp h
      subst this
      simp [Store.lookup, hne.symm]
    · simp [Store.lookup, ih]

theorem lookup_remove_self (s : Store) (k : Bytes) : (s.remove k).lookup k = none := by
  induction s with
  | nil => simp [Store.remove, Store.lookup]
  | cons e rest ih =>
    obtain ⟨k0, v0⟩ := e
    unfold Store.remove at ih ⊢
    by_cases h : k0 = k
    · simp [List.filter_cons, h, ih]
    · simp [List.filter_cons, h, Store.lookup, ih]

theorem lookup_remove_other (s : Store) (k k2 : Bytes) (hne : k2 ≠ k) :
    (s.remove k).lookup k2 = s.lookup k2 := by
  induction s with
  | nil => simp [Store.remove, Store.lookup]
  | cons e rest ih =>
    obtain ⟨k0, v0⟩ := e
    unfold Store.remove at ih ⊢
    by_cases h : k0 = k
    · have : k0 ≠ k2 := fun h2 => hne (h2.symm.trans h)
      simp [List.filter_cons, h, Store.lookup, ih, hne.symm]
    · simp [List.filter_cons, h, Store.lookup, ih]

theorem mem_keys_put (s : Store) (k v : Bytes) (x : Entry) (hx : x ∈ s.put k v) :
    x.1 = k ∨ x ∈ s := by
  induction s with
  | nil => simp [Store.put] at hx; left; rw [hx]
  | cons e rest ih =>
    obtain ⟨k0, v0⟩ := e
    simp only [Store.put] at hx
    cases h : bytesCompare k k0 <;> rw [h] at hx <;> simp only [List.mem_cons] at hx ⊢
    · rcases hx with hx | hx | hx
      · left; rw [hx]
      · right; left; exact hx
      · right; right; exact hx
    · rcases hx with hx | hx
      · left; rw [hx]
      · right; right; exact hx
    · rcases hx with hx | hx
      · right; left; exact hx
      · rcases ih hx with h1 | h1
        · left; exact h1
        · right; right; exact h1

theorem StoreSorted_put (s : Store) (k v : Bytes) (hs : StoreSorted s) :
    StoreSorted (s.put k v) := by
  induction s with
  | nil => simp [Store.put, StoreSorted]
  | cons e rest ih =>
    obtain ⟨k0, v0⟩ := e
    unfold StoreSorted at hs ih ⊢
    rw [List.pairwise_cons] at hs
    simp only [Store.put]
    cases h : bytesCompare k k0
    · have hlt : bytesLt k k0 = true := (bytesLt_iff k k0).mpr h
      rw [List.pairwise_cons]
      refine ⟨?_, List.pairwise_cons.mpr hs⟩
      intro y hy
      rcases List.mem_cons.mp hy with hy | hy
      · rw [hy]; exact hlt
      · exact bytesLt_trans hlt (hs.1 y hy)
    · have : k = k0 := (bytesCompare_eq_iff k k0).mp h
      subst this
      exact List.pairwise_cons.mpr hs
    · have hlt : bytesLt k0 k = true := (bytesLt_iff k0 k).mpr ((bytesCompare_gt_iff k k0).mp h)
      rw [List.pairwise_cons]
      refine ⟨?_, ih hs.2⟩
      intro y hy
      rcases mem_keys_put rest k v y hy with h1 | h1
      · rw [h1]; exact hlt
      · exact hs.1 y h1

theorem StoreSorted_remove (s : Store) (k : Bytes) (hs : StoreSorted s) :
    StoreSorted (s.remove k) :=
  List.Pairwise.filter _ hs

theorem StoreSorted_apply (s : Store) (m : Mutation) (hs : StoreSorted s) :
    StoreSorted (s.apply m) := by
  unfold Store.apply
  cases m.2 with
  | none => exact StoreSorted_remove s m.1 hs
  | some v => exact StoreSorted_put s m.1 v hs

/-! ## Point operations -/

theorem get_eq (t : TikvDB) (c : Client) (k : Bytes) :
    (t.Get noFaults c k).2 =
      match c.store.lookup (t.getTikvKey k) with
      | some v => (some v, none)
      | none => (none, some Error.notFound) := by
  simp only [TikvDB.Get, Client.Begin, noFaults, KVTxn.Get, List.foldl_nil]
  cases c.store.lookup (t.getTikvKey k) <;> rfl

theorem has_eq (t : TikvDB) (c : Client) (k : Bytes) :
    (t.Has noFaults c k).2 = ((c.store.lookup (t.getTikvKey k)).isSome, none) := by
  simp only [TikvDB.Has, Client.Begin, noFaults, KVTxn.Get, List.foldl_nil]
  cases c.store.lookup (t.getTikvKey k) <;> simp

theorem has_store (t : TikvDB) (c : Client) (k : Bytes) :
    (t.Has noFaults c k).1.store = c.store := by
  simp only [TikvDB.Has, Client.Begin, noFaults, KVTxn.Get, KVTxn.Commit, List.foldl_nil]
  cases c.store.lookup (t.getTikvKey k) <;> simp

theorem set_store (t : TikvDB) (c : Client) (k v : Bytes) (hv : v ≠ []) :
    (t.Set noFaults c k v).1.store = c.store.put (t.getTikvKey k) v := by
  simp [TikvDB.Set, Client.Begin, noFaults, KVTxn.Set, KVTxn.Commit, Store.apply, hv]

theorem setSync_store (t : TikvDB) (c : Client) (k v : Bytes) (hv : v ≠ []) :
    (t.SetSync noFaults c k v).1.store = c.store.put (t.getTikvKey k) v := by
  simp [TikvDB.SetSync, Client.Begin, noFaults, KVTxn.Set, KVTxn.Commit, Store.apply, hv]

theorem set_store_nil (t : TikvDB) (c : Client) (k : Bytes) :
    (t.Set noFaults c k []).1.store = c.store := by
  simp [TikvDB.Set, Client.Begin, noFaults, KVTxn.Set, KVTxn.Commit]

theorem setSync_store_nil (t : TikvDB) (c : Client) (k : Bytes) :
    (t.SetSync noFaults c k []).1.store = c.store := by
  simp [TikvDB.SetSync, Client.Begin, noFaults, KVTxn.Set, KVTxn.Commit]

theorem delete_store (t : TikvDB) (c : Client) (k : Bytes) :
    (t.Delete noFaults c k).1.store = c.store.remove (t.getTikvKey k) := by
  simp [TikvDB.Delete, Client.Begin, noFaults, KVTxn.Delete, KVTxn.Commit, Store.apply]

theorem deleteSync_store (t : TikvDB) (c : Client) (k : Bytes) :
    (t.DeleteSync noFaults c k).1.store = c.store.remove (t.getTikvKey k) := by
  simp [TikvDB.DeleteSync, Client.Begin, noFaults, KVTxn.Delete, KVTxn.Commit, Store.apply]

/-- Claim C4, as amended. On a backend that does not fail, for every key and every
value of length above zero, `Set(k, v)` and `SetSync(k, v)` return no error and a
following `Get(k)` on the same database returns `v` with no error. -/
theorem set_then_get_returns_value (t : TikvDB) (c : Client) (k v : Bytes) (hv : v ≠ []) :
    (t.Set noFaults c k v).2 = none ∧
    (t.Get noFaults (t.Set noFaults c k v).1 k).2 = (some v, none) ∧
    (t.SetSync noFaults c k v).2 = none ∧
    (t.Get noFaults (t.SetSync noFaults c k v).1 k).2 = (some v, none) := by
  refine ⟨?_, ?_, ?_, ?_⟩
  · simp [TikvDB.Set, Client.Begin, noFaults, KVTxn.Set, hv]
  · rw [get_eq, set_store t c k v hv, lookup_put_self]
  · simp [TikvDB.SetSync, Client.Begin, noFaults, KVTxn.Set, KVTxn.Commit, hv]
  · rw [get_eq, setSync_store t c k v hv, lookup_put_self]

/-- Claim C4 on the sample backend, for the key `[1]` and the value `[10]`. -/
theorem set_then_get_returns_value_witness :
    ([10] : Bytes) ≠ [] ∧
    (sampleDB.Set noFaults sampleClient [1] [10]).2 = none ∧
    (sampleDB.Get noFaults (sampleDB.Set noFaults sampleClient [1] [10]).1 [1]).2 =
      (some [10], none) ∧
    (sampleDB.SetSync noFaults sampleClient [1] [10]).2 = none ∧
    (sampleDB.Get noFaults (sampleDB.SetSync noFaults sampleClient [1] [10]).1 [1]).2 =
      (some [10], none) :=
  ⟨by decide, set_then_get_returns_value sampleDB sampleClient [1] [10] (by decide)⟩

/-- Claim C4 fails as stated, at the value of length zero: the backend refuses it,
so `Set([1], [])` returns the cannot-set-nil-value error, `SetSync([1], [])` returns
no error, neither stores anything, and the `Get([1])` that follows returns a nil
value with the not-found error instead of the value. -/
theorem set_of_empty_value_stores_nothing :
    sampleDB.Set noFaults emptyClient [1] [] = (⟨[], 1⟩, some Error.cannotSetNilValue) ∧
    (sampleDB.Get noFaults (sampleDB.Set noFaults emptyClient [1] []).1 [1]).2 =
      (none, some Error.notFound) ∧
    sampleDB.SetSync noFaults emptyClient [1] [] = (⟨[], 1⟩, none) ∧
    (sampleDB.Get noFaults (sampleDB.SetSync noFaults emptyClient [1] []).1 [1]).2 =
      (none, some Error.notFound) := by
  decide

/-- Claim C5, the behaviour of the code. After `Delete(k)` (or `DeleteSync(k)`)
on a backend that does not fail, `Get(k)` returns a nil value together with the
not-found error of the backend, for every key and every prior state, while `Has(k)`
on the same state answers `false` with no error. -/
theorem delete_then_get_returns_not_found_error (t : TikvDB) (c : Client) (k : Bytes) :
    (t.Get noFaults (t.Delete noFaults c k).1 k).2 = (none, some Error.notFound) ∧
    (t.Get noFaults (t.DeleteSync noFaults c k).1 k).2 = (none, some Error.notFound) ∧
    (t.Has noFaults (t.Delete noFaults c k).1 k).2 = (false, none) := by
  refine ⟨?_, ?_, ?_⟩
  · rw [get_eq, delete_store, lookup_remove_self]
  · rw [get_eq, deleteSync_store, lookup_remove_self]
  · rw [has_eq, delete_store, lookup_remove_self]; rfl

/-! ## Batch writes -/

theorem replay_buffer (f : Faults) (log : List keyvalue) (i : Nat) (txn txn2 : KVTxn)
    (h : replay f log i txn = (txn2, none)) :
    txn2.buffer = txn.buffer ++ log.map keyvalue.toMutation ∧ txn2.snapshot = txn.snapshot := by
  induction log generalizing i txn with
  | nil =>
    simp only [replay, Prod.mk.injEq] at h
    simp [← h.1]
  | cons kv rest ih =>
    simp only [replay] at h
    by_cases hd : kv.delete = true
    · simp only [hd, if_true, KVTxn.Delete] at h
      cases hf : f.atCall i with
      | some code => simp [hf] at h
      | none =>
        simp only [hf] at h
        have := ih _ _ h
        simp [this.1, this.2, keyvalue.toMutation, hd]
    · simp only [hd, KVTxn.Set] at h
      cases hf : f.atCall i with
      | some code => simp [hf] at h
      | none =>
        simp only [hf] at h
        by_cases hv : kv.value.length = 0
        · simp [hv] at h
        · simp only [hv, if_false] at h
          have := ih _ _ h
          simp [this.1, this.2, keyvalue.toMutation, hd]

/-- A replay that ends without error has met no `Set` of a value of length zero. -/
theorem replay_values (f : Faults) (log : List keyvalue) (i : Nat) (txn txn2 : KVTxn)
    (h : replay f log i txn = (txn2, none)) :
    ∀ kv ∈ log, kv.delete = true ∨ kv.value ≠ [] := by
  induction log generalizing i txn with
  | nil => simp
  | cons kv rest ih =>
    simp only [replay] at h
    intro kv2 hkv2
    by_cases hd : kv.delete = true
    · simp only [hd, if_true, KVTxn.Delete] at h
      cases hf : f.atCall i with
      | some code => simp [hf] at h
      | none =>
        simp only [hf] at h
        rcases List.mem_cons.mp hkv2 with h2 | h2
        · rw [h2]; exact Or.inl hd
        · exact ih _ _ h kv2 h2
    · simp only [hd, KVTxn.Set] at h
      cases hf : f.atCall i with
      | some code => simp [hf] at h
      | none =>
        simp only [hf] at h
        by_cases hv : kv.value.length = 0
        · simp [hv] at h
        · simp only [hv, if_false] at h
          rcases List.mem_cons.mp hkv2 with h2 | h2
          · rw [h2]
            exact Or.inr (fun hnil => hv (by rw [hnil]; rfl))
          · exact ih _ _ h kv2 h2

/-- The value that an accumulated last operation gives a key, over a base value. -/
theorem lookup_foldl_apply (key : Bytes) (base : Option Bytes) (log : List keyvalue)
    (s : Store) (acc : Option keyvalue)
    (h : s.lookup key =
      match acc with
      | none => base
      | some kv => if kv.delete then none else some kv.value) :
    ((log.map keyvalue.toMutation).foldl Store.apply s).lookup key =
      match log.foldl (fun acc kv => if kv.key = key then some kv else acc) acc with
      | none => base
      | some kv => if kv.delete then none else some kv.value := by
  induction log generalizing s acc with
  | nil => simpa using h
  | cons kv rest ih =>
    simp only [List.map_cons, List.foldl_cons]
    apply ih
    by_cases hk : kv.key = key
    · simp only [hk, if_true]
      by_cases hd : kv.delete = true
      · simp [Store.apply, keyvalue.toMutation, hd, hk, lookup_remove_self]
      · simp [Store.apply, keyvalue.toMutation, hd, hk, lookup_put_self]
    · simp only [hk, if_false]
      rw [← h]
      by_cases hd : kv.delete = true
      · simp [Store.apply, keyvalue.toMutation, hd]
        exact lookup_remove_other s kv.key key (fun h2 => hk h2.symm)
      · simp [Store.apply, keyvalue.toMutation, hd]
        exact lookup_put_other s kv.key kv.value key (fun h2 => hk h2.symm)

theorem write_store (b : tikvDBBatch) (f : Faults) (c c2 : Client) (sync : Bool)
    (h : b.write f c sync = (c2, none)) :
    c2.store = (b.writes.map keyvalue.toMutation).foldl Store.apply c.store := by
  simp only [tikvDBBatch.write, Client.Begin] at h
  cases hb : f.atBegin with
  | some code => simp [hb] at h
  | none =>
    simp only [hb] at h
    cases hr : replay f b.writes 0 ⟨c.store, []⟩ with
    | mk txn1 e =>
      rw [hr] at h
      cases e with
      | some e => simp at h
      | none =>
        have hbuf := replay_buffer f b.writes 0 _ _ hr
        simp only [KVTxn.Commit] at h
        cases hc : f.atCommit with
        | some code => simp [hc] at h
        | none =>
          simp only [hc, Prod.mk.injEq, and_true] at h
          rw [← h, hbuf.1]
          simp

/-- Claim C10. A `Write` or `WriteSync` that returns no error leaves the backend
equal to the prior state with the log replayed in append order: every physical key
holds the value of the last `Set` of the log on it, is absent if the last operation
on it is a `Delete`, and keeps its prior content if the log does not name it. -/
theorem write_replays_log (b : tikvDBBatch) (f : Faults) (c c2 : Client)
    (h : b.Write f c = (c2, none) ∨ b.WriteSync f c = (c2, none)) (key : Bytes) :
    c2.store.lookup key = expectedAfter c.store b.writes key := by
  have hs : c2.store = (b.writes.map keyvalue.toMutation).foldl Store.apply c.store := by
    rcases h with h | h
    · exact write_store b f c c2 false h
    · exact write_store b f c c2 true h
  rw [hs]
  exact lookup_foldl_apply key (c.store.lookup key) b.writes c.store none rfl

/-- Claim C10 at a concrete batch: two writes and a removal over a state that
holds two records. -/
theorem write_replays_log_witness :
    ((((sampleDB.NewBatch.Set [1] [10]).1.Delete [2]).1.Set [1] [11]).1.Write noFaults
        ⟨[([97, 47, 98, 47, 2], [20]), ([97, 47, 98, 47, 3], [30])], 0⟩ =
      (⟨[([97, 47, 98, 47, 1], [11]), ([97, 47, 98, 47, 3], [30])], 1⟩, none) ∨
     (((sampleDB.NewBatch.Set [1] [10]).1.Delete [2]).1.Set [1] [11]).1.WriteSync noFaults
        ⟨[([97, 47, 98, 47, 2], [20]), ([97, 47, 98, 47, 3], [30])], 0⟩ =
      (⟨[([97, 47, 98, 47, 1], [11]), ([97, 47, 98, 47, 3], [30])], 1⟩, none)) ∧
    Store.lookup [([97, 47, 98, 47, 1], [11]), ([97, 47, 98, 47, 3], [30])] [97, 47, 98, 47, 1] =
      expectedAfter [([97, 47, 98, 47, 2], [20]), ([97, 47, 98, 47, 3], [30])]
        (((sampleDB.NewBatch.Set [1] [10]).1.Delete [2]).1.Set [1] [11]).1.writes
        [97, 47, 98, 47, 1] :=
  ⟨Or.inl (by decide),
   write_replays_log (((sampleDB.NewBatch.Set [1] [10]).1.Delete [2]).1.Set [1] [11]).1 noFaults
     ⟨[([97, 47, 98, 47, 2], [20]), ([97, 47, 98, 47, 3], [30])], 0⟩
     ⟨[([97, 47, 98, 47, 1], [11]), ([97, 47, 98, 47, 3], [30])], 1⟩
     (Or.inl (by decide)) [97, 47, 98, 47, 1]⟩

/-! ## Construction of iterators -/

theorem isEmptyBound_iff (b : Option Bytes) : isEmptyBound b = true ↔ b = some [] := by
  cases b with
  | none => simp [isEmptyBound]
  | some bz => cases bz <;> simp [isEmptyBound]

theorem iter_ne_keyEmpty (txn : KVTxn) (fault : Option Nat) (k u : Bytes) :
    (∃ code, txn.Iter fault k u = Except.error (Error.backend code)) ∨
      ∃ src, txn.Iter fault k u = Except.ok src := by
  cases fault with
  | some code => exact Or.inl ⟨code, rfl⟩
  | none => exact Or.inr ⟨_, rfl⟩

theorem iterReverse_ne_keyEmpty (txn : KVTxn) (fault : Option Nat) (k : Bytes) :
    (∃ code, txn.IterReverse fault k = Except.error (Error.backend code)) ∨
      ∃ src, txn.IterReverse fault k = Except.ok src := by
  cases fault with
  | some code => exact Or.inl ⟨code, rfl⟩
  | none => exact Or.inr ⟨_, rfl⟩

theorem newTikvDBIterator_ne_keyEmpty (txn : KVTxn) (f : Faults) (pfx : Bytes)
    (start end_ : Option Bytes) (isReverse : Bool) :
    newTikvDBIterator txn f pfx start end_ isReverse ≠ Except.error Error.keyEmpty := by
  unfold newTikvDBIterator
  cases isReverse with
  | true =>
    simp only [if_true]
    cases end_ with
    | none =>
      simp only
      rcases iterReverse_ne_keyEmpty txn (f.atCall 0)
        (tikvDBIterator.getTikvKey ⟨⟨[]⟩, pfx, start, none, true, true, none⟩ endKey) with
        ⟨code, h⟩ | ⟨src, h⟩ <;> rw [h] <;> simp
    | some e =>
      simp only
      rcases iterReverse_ne_keyEmpty txn (f.atCall 0)
        (tikvDBIterator.getTikvKey ⟨⟨[]⟩, pfx, start, some e, true, true, none⟩ e) with
        ⟨code, h⟩ | ⟨src, h⟩ <;> rw [h]
      · simp
      · simp only
        by_cases hv : src.Valid = true
        · simp [hv]
        · simp only [hv, Bool.not_false, if_true, Bool.not_eq_true] at *
          rcases iterReverse_ne_keyEmpty txn (f.atCall 1)
            (tikvDBIterator.getTikvKey ⟨⟨[]⟩, pfx, start, some e, true, true, none⟩ endKey) with
            ⟨code, h⟩ | ⟨src, h⟩ <;> rw [h] <;> simp
  | false =>
    simp only [Bool.false_eq_true, if_false]
    cases start with
    | none =>
      simp only
      rcases iter_ne_keyEmpty txn (f.atCall 0) pfx
        (tikvDBIterator.getTikvKey ⟨⟨[]⟩, pfx, none, end_, false, true, none⟩ endKey) with
        ⟨code, h⟩ | ⟨src, h⟩ <;> rw [h] <;> simp
    | some s =>
      simp only
      rcases iter_ne_keyEmpty txn (f.atCall 0)
        (tikvDBIterator.getTikvKey ⟨⟨[]⟩, pfx, some s, end_, false, true, none⟩ s)
        (tikvDBIterator.getTikvKey ⟨⟨[]⟩, pfx, some s, end_, false, true, none⟩ endKey) with
        ⟨code, h⟩ | ⟨src, h⟩ <;> rw [h] <;> simp

theorem newTikvDBIterator_noFaults_ok (txn : KVTxn) (pfx : Bytes)
    (start end_ : Option Bytes) (isReverse : Bool) :
    ∃ itr, newTikvDBIterator txn noFaults pfx start end_ isReverse = Except.ok itr ∧
      itr.start = start ∧ itr.end_ = end_ ∧ itr.pfx = pfx ∧ itr.isReverse = isReverse := by
  unfold newTikvDBIterator
  cases isReverse with
  | true =>
    cases end_ with
    | none => exact ⟨_, rfl, rfl, rfl, rfl, rfl⟩
    | some e =>
      simp only [if_true, noFaults, KVTxn.IterReverse]
      split <;> exact ⟨_, rfl, rfl, rfl, rfl, rfl⟩
  | false =>
    cases start with
    | none => exact ⟨_, rfl, rfl, rfl, rfl, rfl⟩
    | some s => exact ⟨_, rfl, rfl, rfl, rfl, rfl⟩

/-- Claim C6. `Iterator` and `ReverseIterator` return the empty-key error exactly
when `start` or `end` is a non-nil slice of length zero, whatever the backend does;
they then leave the client untouched, no transaction begun; and with bounds that
are nil or non-empty, on a backend that does not fail, they begin one transaction
and return a cursor over the bounds as given. -/
theorem iterator_rejects_exactly_empty_bounds (t : TikvDB) (f : Faults) (c : Client)
    (start end_ : Option Bytes) :
    ((t.Iterator f c start end_).2 = Except.error Error.keyEmpty ↔
      (start = some [] ∨ end_ = some [])) ∧
    ((t.ReverseIterator f c start end_).2 = Except.error Error.keyEmpty ↔
      (start = some [] ∨ end_ = some [])) ∧
    ((start = some [] ∨ end_ = some []) →
      (t.Iterator f c start end_).1 = c ∧ (t.ReverseIterator f c start end_).1 = c) ∧
    (¬ (start = some [] ∨ end_ = some []) →
      (∃ itr, (t.Iterator noFaults c start end_).2 = Except.ok itr ∧
        itr.start = start ∧ itr.end_ = end_ ∧ itr.isReverse = false) ∧
      (∃ itr, (t.ReverseIterator noFaults c start end_).2 = Except.ok itr ∧
        itr.start = start ∧ itr.end_ = end_ ∧ itr.isReverse = true) ∧
      (t.Iterator noFaults c start end_).1.begun = c.begun + 1 ∧
      (t.ReverseIterator noFaults c start end_).1.begun = c.begun + 1) := by
  have hb : (isEmptyBound start || isEmptyBound end_) = true ↔
      (start = some [] ∨ end_ = some []) := by
    rw [Bool.or_eq_true, isEmptyBound_iff, isEmptyBound_iff]
  refine ⟨?_, ?_, ?_, ?_⟩
  · by_cases he : (isEmptyBound start || isEmptyBound end_) = true
    · simp only [TikvDB.Iterator, he, if_true, true_iff]
      exact hb.mp he
    · simp only [TikvDB.Iterator, he, if_false, Bool.false_eq_true]
      rw [← hb]
      simp only [he, iff_false, Client.Begin]
      cases f.atBegin with
      | some code => simp
      | none => simpa using newTikvDBIterator_ne_keyEmpty _ f t.tikvStoreKeyPrefix start end_ false
  · by_cases he : (isEmptyBound start || isEmptyBound end_) = true
    · simp only [TikvDB.ReverseIterator, he, if_true, true_iff]
      exact hb.mp he
    · simp only [TikvDB.ReverseIterator, he, if_false, Bool.false_eq_true]
      rw [← hb]
      simp only [he, iff_false, Client.Begin]
      cases f.atBegin with
      | some code => simp
      | none => simpa using newTikvDBIterator_ne_keyEmpty _ f t.tikvStoreKeyPrefix start end_ true
  · intro h
    have he := hb.mpr h
    simp [TikvDB.Iterator, TikvDB.ReverseIterator, he]
  · intro h
    have he : (isEmptyBound start || isEmptyBound end_) = false := by
      rw [← hb] at h; simpa using h
    refine ⟨?_, ?_, ?_, ?_⟩
    · obtain ⟨itr, h1, h2, h3, _, h5⟩ :=
        newTikvDBIterator_noFaults_ok ⟨c.store, []⟩ t.tikvStoreKeyPrefix start end_ false
      exact ⟨itr, by simp [TikvDB.Iterator, he, Client.Begin, noFaults]; exact h1, h2, h3, h5⟩
    · obtain ⟨itr, h1, h2, h3, _, h5⟩ :=
        newTikvDBIterator_noFaults_ok ⟨c.store, []⟩ t.tikvStoreKeyPrefix start end_ true
      exact ⟨itr, by simp [TikvDB.ReverseIterator, he, Client.Begin, noFaults]; exact h1,
        h2, h3, h5⟩
    · simp [TikvDB.Iterator, he, Client.Begin, noFaults, KVTxn.Commit]
    · simp [TikvDB.ReverseIterator, he, Client.Begin, noFaults, KVTxn.Commit]

/-! ## Opening and closing a database -/

theorem prefix_check_false {pfx key : Bytes} (h : pfx <+: key) :
    (decide (key.length < pfx.length) || !(key.take pfx.length == pfx)) = false := by
  obtain ⟨t, rfl⟩ := h
  simp

theorem prefix_check_true {pfx key : Bytes} (h : ¬ pfx <+: key) :
    (decide (key.length < pfx.length) || !(key.take pfx.length == pfx)) = true := by
  by_contra hc
  apply h
  simp only [Bool.not_eq_true, Bool.or_eq_false_iff, decide_eq_false_iff_not, not_lt,
    Bool.not_eq_false', beq_iff_eq] at hc
  rw [List.prefix_iff_eq_take]
  exact hc.2.symm

theorem lowerKey_ge (pfx : Bytes) (start : Option Bytes) :
    bytesLe pfx (lowerKey pfx start) = true := by
  cases start with
  | none => exact bytesLe_refl pfx
  | some s => exact bytesLe_append_self pfx s

/-- Once `Valid` answers `true` it has left the iterator as it was. -/
theorem valid_true_eq (itr : tikvDBIterator) (h : itr.Valid.1 = true) : itr.Valid = (true, itr) := by
  unfold tikvDBIterator.Valid at h ⊢
  cases hP : itr.pastLimit <;>
    cases hQ : (!itr.isValid || itr.err.isSome || !itr.source.Valid) <;>
    cases hR : itr.outOfScope <;> simp [hP, hQ, hR] at h ⊢

/-- On an exhausted cursor `Valid` answers `false`. -/
theorem valid_nil (itr : tikvDBIterator) (h : itr.source.items = []) : itr.Valid.1 = false := by
  unfold tikvDBIterator.Valid
  have hQ : (!itr.isValid || itr.err.isSome || !itr.source.Valid) = true := by
    simp [Source.Valid, h]
  cases hP : itr.pastLimit <;> simp [hQ]

/-- After the flag `isValid` is cleared `Valid` answers `false`. -/
theorem valid_of_not_isValid (itr : tikvDBIterator) (h : itr.isValid = false) :
    itr.Valid.1 = false := by
  unfold tikvDBIterator.Valid
  have hQ : (!itr.isValid || itr.err.isSome || !itr.source.Valid) = true := by
    simp [h]
  cases hP : itr.pastLimit <;> simp [hQ]

/-- The answer of `Valid` in terms of its three tests. -/
theorem valid_iff (itr : tikvDBIterator) :
    itr.Valid.1 = true ↔
      itr.pastLimit = false ∧ itr.isValid = true ∧ itr.err = none ∧
        itr.source.items ≠ [] ∧ itr.pfx <+: itr.source.Key := by
  unfold tikvDBIterator.Valid
  have hR : itr.outOfScope = false ↔ itr.pfx <+: itr.source.Key := by
    unfold tikvDBIterator.outOfScope
    constructor
    · intro h
      by_contra hc
      rw [prefix_check_true hc] at h
      cases h
    · exact prefix_check_false
  have hS : itr.source.Valid = true ↔ itr.source.items ≠ [] := by
    cases hi : itr.source.items <;> simp [Source.Valid, hi]
  rw [← hR, ← hS]
  cases hP : itr.pastLimit <;> cases hV : itr.isValid <;> cases hE : itr.err <;>
    cases hQ : itr.source.Valid <;> cases hO : itr.outOfScope <;> simp

/-- A `true` answer of `Valid` means that the current key carries the namespace. -/
theorem valid_carries_pfx (itr : tikvDBIterator) (h : itr.Valid.1 = true) :
    itr.pfx <+: itr.source.Key ∧ itr.source.items ≠ [] :=
  ⟨((valid_iff itr).mp h).2.2.2.2, ((valid_iff itr).mp h).2.2.2.1⟩

theorem walk_stop (fuel : Nat) (itr : tikvDBIterator) (h : itr.Valid.1 = false) :
    walk (fuel + 1) itr = Res.ok [] := by
  unfold walk
  cases hv : itr.Valid with
  | mk b itr1 =>
    rw [hv] at h
    simp only at h
    subst h
    rfl

theorem key_of_valid (itr : tikvDBIterator) (h : itr.Valid.1 = true) :
    itr.Key = Res.ok itr.source.Key := by
  unfold tikvDBIterator.Key
  rw [valid_true_eq itr h]
  rfl

theorem walk_step (fuel : Nat) (itr itr2 : tikvDBIterator) (h : itr.Valid.1 = true)
    (hn : itr.Next = Res.ok itr2) :
    walk (fuel + 1) itr =
      match walk fuel itr2 with
      | Res.ok keys => Res.ok (itr.source.Key :: keys)
      | Res.panic => Res.panic
      | Res.outOfFuel => Res.outOfFuel := by
  conv => lhs; unfold walk
  rw [valid_true_eq itr h]
  simp only [key_of_valid itr h, hn]

/-- One call of `Next` on a valid iterator whose cursor holds `x :: rest`. -/
theorem next_last (itr : tikvDBIterator) (x : Entry) (h : itr.Valid.1 = true)
    (hi : itr.source.items = [x]) :
    itr.Next = Res.ok { itr with source := ⟨[]⟩, isValid := false } := by
  unfold tikvDBIterator.Next tikvDBIterator.NextN
  rw [valid_true_eq itr h]
  simp [Source.Next, hi, Source.Valid]

theorem next_leaves (itr : tikvDBIterator) (x y : Entry) (rest : List Entry)
    (h : itr.Valid.1 = true) (hi : itr.source.items = x :: y :: rest)
    (hp : ¬ itr.pfx <+: y.1) :
    itr.Next = Res.ok { itr with source := ⟨y :: rest⟩, isValid := false } := by
  unfold tikvDBIterator.Next tikvDBIterator.NextN
  rw [valid_true_eq itr h]
  have hp2 : hasPrefix y.1 itr.pfx = false := by
    cases hh : hasPrefix y.1 itr.pfx
    · rfl
    · exact absurd ((hasPrefix_iff _ _).mp hh) hp
  simp [Source.Next, hi, Source.Valid, Source.Key, hp2]

theorem next_stays (itr : tikvDBIterator) (x y : Entry) (rest : List Entry)
    (h : itr.Valid.1 = true) (hi : itr.source.items = x :: y :: rest)
    (hp : itr.pfx <+: y.1) (hne : y.1 ≠ itr.pfx) :
    itr.Next = Res.ok { itr with source := ⟨y :: rest⟩ } := by
  unfold tikvDBIterator.Next tikvDBIterator.NextN
  rw [valid_true_eq itr h]
  have hp2 : hasPrefix y.1 itr.pfx = true := (hasPrefix_iff _ _).mpr hp
  simp [Source.Next, hi, Source.Valid, Source.Key, hp2, hne]

/-! ## Walking a forward iterator -/

theorem pastLimit_forward (src : Source) (pfx : Bytes) (start end_ : Option Bytes)
    (v : Bool) (err : Option Error) :
    tikvDBIterator.pastLimit ⟨src, pfx, start, end_, false, v, err⟩ =
      !belowEnd pfx end_ src.Key := by
  cases end_ with
  | none => simp [tikvDBIterator.pastLimit, belowEnd]
  | some e =>
    simp [tikvDBIterator.pastLimit, belowEnd, tikvDBIterator.getTikvKey, cp, bytesLe_eq_not_lt]

theorem walk_forward (pfx : Bytes) (start end_ : Option Bytes) (l : List Entry)
    (hp : ∀ e ∈ l, pfx <+: e.1) (hs : l.Pairwise (fun x y => bytesLt x.1 y.1 = true))
    (fuel : Nat) (hf : l.length < fuel) :
    walk fuel ⟨⟨l⟩, pfx, start, end_, false, true, none⟩ =
      Res.ok ((l.takeWhile (fun e => belowEnd pfx end_ e.1)).map Prod.fst) := by
  induction l generalizing fuel with
  | nil =>
    cases fuel with
    | zero => simp at hf
    | succ n => exact walk_stop n _ (valid_nil _ rfl)
  | cons x rest ih =>
    cases fuel with
    | zero => simp at hf
    | succ n =>
      have hxp : pfx <+: x.1 := hp x (List.mem_cons_self _ _)
      cases hb : belowEnd pfx end_ x.1 with
      | false =>
        rw [List.takeWhile_cons_of_neg (by simp [hb])]
        apply walk_stop
        cases hv : (tikvDBIterator.Valid ⟨⟨x :: rest⟩, pfx, start, end_, false, true, none⟩).1
        · rfl
        · have := ((valid_iff _).mp hv).1
          rw [pastLimit_forward] at this
          simp [Source.Key, hb] at this
      | true =>
        rw [List.takeWhile_cons_of_pos (by simp [hb])]
        have hv : (tikvDBIterator.Valid ⟨⟨x :: rest⟩, pfx, start, end_, false, true, none⟩).1
            = true := by
          rw [valid_iff, pastLimit_forward]
          simp [Source.Key, hb, hxp]
        cases rest with
        | nil =>
          rw [walk_step n _ _ hv (next_last _ x hv rfl)]
          cases n with
          | zero => simp at hf
          | succ m =>
            rw [walk_stop m _ (valid_nil _ rfl)]
            simp [Source.Key]
        | cons y r =>
          have hyp : pfx <+: y.1 := hp y (by simp)
          rw [List.pairwise_cons] at hs
          have hxy : bytesLt x.1 y.1 = true := hs.1 y (by simp)
          have hne : y.1 ≠ pfx := by
            intro heq
            have h1 := bytesLt_of_le_of_lt (bytesLe_of_isPrefix hxp) hxy
            rw [heq, bytesLt_irrefl] at h1
            cases h1
          rw [walk_step n _ _ hv (next_stays _ x y r hv rfl hyp hne)]
          have := ih (fun e he => hp e (List.mem_cons_of_mem _ he)) hs.2 n
            (by simp at hf ⊢; omega)
          simp only at this ⊢
          rw [this]
          simp [Source.Key]

/-! ## Walking a reverse iterator -/

theorem pastLimit_reverse (src : Source) (pfx : Bytes) (start end_ : Option Bytes)
    (v : Bool) (err : Option Error) :
    tikvDBIterator.pastLimit ⟨src, pfx, start, end_, true, v, err⟩ =
      match start with
      | some s => bytesLt src.Key (pfx ++ s)
      | none => false := by
  cases start <;> simp [tikvDBIterator.pastLimit, tikvDBIterator.getTikvKey, cp]

/-- A reverse iterator is valid on a key below some extension of the namespace
exactly when the key is not below the lower bound. -/
theorem valid_reverse_iff (pfx u : Bytes) (start end_ : Option Bytes) (x : Entry)
    (rest : List Entry) (hu : bytesLt x.1 (pfx ++ u) = true) :
    (tikvDBIterator.Valid ⟨⟨x :: rest⟩, pfx, start, end_, true, true, none⟩).1 =
      bytesLe (lowerKey pfx start) x.1 := by
  cases hle : bytesLe (lowerKey pfx start) x.1 with
  | true =>
    have hpx : pfx <+: x.1 :=
      prefix_of_between pfx u x.1 (bytesLe_trans (lowerKey_ge pfx start) hle) hu
    rw [valid_iff, pastLimit_reverse]
    refine ⟨?_, rfl, rfl, by simp, hpx⟩
    cases start with
    | none => rfl
    | some s =>
      simp only [lowerKey, bytesLe_eq_not_lt] at hle
      simpa [Source.Key] using hle
  | false =>
    cases hv : (tikvDBIterator.Valid ⟨⟨x :: rest⟩, pfx, start, end_, true, true, none⟩).1
    · rfl
    · have h := (valid_iff _).mp hv
      rw [pastLimit_reverse] at h
      cases start with
      | none =>
        have := bytesLe_of_isPrefix h.2.2.2.2
        simp only [lowerKey, Source.Key] at hle this
        rw [hle] at this
        cases this
      | some s =>
        have h1 := h.1
        simp only [lowerKey, bytesLe_eq_not_lt, Source.Key] at hle h1
        rw [h1] at hle
        cases hle

theorem walk_reverse (pfx u : Bytes) (start end_ : Option Bytes) (l : List Entry)
    (hu : ∀ e ∈ l, bytesLt e.1 (pfx ++ u) = true)
    (hs : l.Pairwise (fun x y => bytesLt y.1 x.1 = true))
    (hne : ∀ e ∈ l, e.1 ≠ pfx)
    (fuel : Nat) (hf : l.length < fuel) :
    walk fuel ⟨⟨l⟩, pfx, start, end_, true, true, none⟩ =
      Res.ok ((l.takeWhile (fun e => bytesLe (lowerKey pfx start) e.1)).map Prod.fst) := by
  induction l generalizing fuel with
  | nil =>
    cases fuel with
    | zero => simp at hf
    | succ n => exact walk_stop n _ (valid_nil _ rfl)
  | cons x rest ih =>
    cases fuel with
    | zero => simp at hf
    | succ n =>
      have hv := valid_reverse_iff pfx u start end_ x rest (hu x (List.mem_cons_self _ _))
      cases hb : bytesLe (lowerKey pfx start) x.1 with
      | false =>
        rw [List.takeWhile_cons_of_neg (by simp [hb])]
        rw [hb] at hv
        exact walk_stop n _ hv
      | true =>
        rw [List.takeWhile_cons_of_pos (by simp [hb])]
        rw [hb] at hv
        cases rest with
        | nil =>
          rw [walk_step n _ _ hv (next_last _ x hv rfl)]
          cases n with
          | zero => simp at hf
          | succ m =>
            rw [walk_stop m _ (valid_nil _ rfl)]
            simp [Source.Key]
        | cons y r =>
          have hyu : bytesLt y.1 (pfx ++ u) = true := hu y (by simp)
          rw [List.pairwise_cons] at hs
          cases n with
          | zero => simp at hf
          | succ m =>
            by_cases hyp : pfx <+: y.1
            · have hyne : y.1 ≠ pfx := hne y (by simp)
              rw [walk_step _ _ _ hv (next_stays _ x y r hv rfl hyp hyne)]
              have := ih (fun e he => hu e (List.mem_cons_of_mem _ he)) hs.2
                (fun e he => hne e (List.mem_cons_of_mem _ he)) (m + 1)
                (by simp at hf ⊢; omega)
              simp only at this ⊢
              rw [this]
              simp [Source.Key]
            · rw [walk_step _ _ _ hv (next_leaves _ x y r hv rfl hyp)]
              rw [walk_stop m _ (valid_of_not_isValid _ rfl)]
              have hyl : bytesLe (lowerKey pfx start) y.1 = false := by
                cases h : bytesLe (lowerKey pfx start) y.1
                · rfl
                · exact absurd (prefix_of_between pfx u y.1
                    (bytesLe_trans (lowerKey_ge pfx start) h) hyu) hyp
              rw [List.takeWhile_cons_of_neg (by simp [hyl])]
              simp [Source.Key]

/-! ## Iterators over a sorted store -/

theorem takeWhile_eq_filter_of_pairwise {α : Type} (R : α → α → Prop) (p : α → Bool)
    (l : List α) (hs : l.Pairwise R) (hm : ∀ x y, R x y → p y = true → p x = true) :
    l.takeWhile p = l.filter p := by
  induction l with
  | nil => rfl
  | cons x rest ih =>
    rw [List.pairwise_cons] at hs
    cases hx : p x with
    | true =>
      rw [List.takeWhile_cons_of_pos hx, List.filter_cons_of_pos hx, ih hs.2]
    | false =>
      rw [List.takeWhile_cons_of_neg (by simp [hx]), List.filter_cons_of_neg (by simp [hx])]
      symm
      rw [List.filter_eq_nil_iff]
      intro y hy hpy
      have := hm x y (hs.1 y hy) hpy
      rw [hx] at this
      cases this

theorem belowEnd_mono (pfx : Bytes) (end_ : Option Bytes) (x y : Bytes)
    (hxy : bytesLt x y = true) (h : belowEnd pfx end_ y = true) : belowEnd pfx end_ x = true := by
  cases end_ with
  | none => rfl
  | some e => exact bytesLt_trans hxy h

theorem iterator_eq (t : TikvDB) (c : Client) (start end_ : Option Bytes)
    (hne : (isEmptyBound start || isEmptyBound end_) = false) :
    (t.Iterator noFaults c start end_).2 =
      Except.ok ⟨⟨c.store.filter (fun e =>
        bytesLe (lowerKey t.tikvStoreKeyPrefix start) e.1 &&
          bytesLt e.1 (t.tikvStoreKeyPrefix ++ endKey))⟩,
        t.tikvStoreKeyPrefix, start, end_, false, true, none⟩ := by
  cases start <;>
    simp [TikvDB.Iterator, hne, Client.Begin, noFaults, newTikvDBIterator, KVTxn.Iter,
      KVTxn.view, tikvDBIterator.getTikvKey, cp, lowerKey]

theorem reverseIterator_eq (t : TikvDB) (c : Client) (start end_ : Option Bytes)
    (hne : (isEmptyBound start || isEmptyBound end_) = false) :
    (t.ReverseIterator noFaults c start end_).2 =
      Except.ok ⟨⟨
        if (c.store.filter (fun e => bytesLt e.1 (upperKey t.tikvStoreKeyPrefix end_))) = []
        then (c.store.filter (fun e => bytesLt e.1 (t.tikvStoreKeyPrefix ++ endKey))).reverse
        else (c.store.filter
          (fun e => bytesLt e.1 (upperKey t.tikvStoreKeyPrefix end_))).reverse⟩,
        t.tikvStoreKeyPrefix, start, end_, true, true, none⟩ := by
  cases end_ with
  | none =>
    simp [TikvDB.ReverseIterator, hne, Client.Begin, noFaults, newTikvDBIterator,
      KVTxn.IterReverse, KVTxn.view, tikvDBIterator.getTikvKey, cp, upperKey]
  | some e =>
    simp only [TikvDB.ReverseIterator, hne, Client.Begin, noFaults, newTikvDBIterator,
      KVTxn.IterReverse, KVTxn.view, tikvDBIterator.getTikvKey, cp, upperKey, Source.Valid,
      List.foldl_nil, if_true, Bool.false_eq_true, if_false]
    by_cases hnil : c.store.filter (fun x => bytesLt x.1 (t.tikvStoreKeyPrefix ++ e)) = []
    · simp [hnil]
    · simp [hnil]

/-- The keys that the loop reads from a forward iterator of a sorted store. -/
theorem forward_collect (t : TikvDB) (c : Client) (start end_ : Option Bytes)
    (hs : StoreSorted c.store)
    (hne : (isEmptyBound start || isEmptyBound end_) = false) :
    ∃ itr, (t.Iterator noFaults c start end_).2 = Except.ok itr ∧
      collect itr =
        Res.ok ((forwardRange t.tikvStoreKeyPrefix start end_ c.store).map Prod.fst) := by
  refine ⟨_, iterator_eq t c start end_ hne, ?_⟩
  unfold collect
  simp only
  rw [walk_forward]
  · rw [takeWhile_eq_filter_of_pairwise (fun x y : Entry => bytesLt x.1 y.1 = true)]
    · rw [List.filter_filter, forwardRange]
      congr 2
      apply List.filter_congr
      intro e _
      rw [Bool.and_comm]
    · exact List.Pairwise.filter _ hs
    · intro x y hxy hy
      exact belowEnd_mono _ _ _ _ hxy hy
  · intro e he
    rw [List.mem_filter, Bool.and_eq_true] at he
    exact prefix_of_between _ endKey e.1
      (bytesLe_trans (lowerKey_ge _ start) he.2.1) he.2.2
  · exact List.Pairwise.filter _ hs
  · exact Nat.lt_succ_self _

/-- The keys that the loop reads from a reverse iterator of a sorted store that
holds no key equal to the namespace bytes, when the first backend cursor is valid. -/
theorem reverse_collect (t : TikvDB) (c : Client) (start end_ : Option Bytes)
    (hs : StoreSorted c.store)
    (hne : (isEmptyBound start || isEmptyBound end_) = false)
    (hpfx : ∀ e ∈ c.store, e.1 ≠ t.tikvStoreKeyPrefix)
    (hfirst : end_ ≠ none →
      ∃ e ∈ c.store, bytesLt e.1 (upperKey t.tikvStoreKeyPrefix end_) = true) :
    ∃ itr, (t.ReverseIterator noFaults c start end_).2 = Except.ok itr ∧
      collect itr =
        Res.ok ((reverseRange t.tikvStoreKeyPrefix start end_ c.store).map Prod.fst).reverse := by
  have hitems : (if (c.store.filter
        (fun e => bytesLt e.1 (upperKey t.tikvStoreKeyPrefix end_))) = []
      then (c.store.filter (fun e => bytesLt e.1 (t.tikvStoreKeyPrefix ++ endKey))).reverse
      else (c.store.filter
        (fun e => bytesLt e.1 (upperKey t.tikvStoreKeyPrefix end_))).reverse) =
      (c.store.filter (fun e => bytesLt e.1 (upperKey t.tikvStoreKeyPrefix end_))).reverse := by
    cases end_ with
    | none => simp [upperKey]
    | some b =>
      obtain ⟨e, he, hlt⟩ := hfirst (by simp)
      rw [if_neg]
      intro hnil
      rw [List.filter_eq_nil_iff] at hnil
      exact hnil e he hlt
  have heq := reverseIterator_eq t c start end_ hne
  rw [hitems] at heq
  refine ⟨_, heq, ?_⟩
  have hu : ∃ u, upperKey t.tikvStoreKeyPrefix end_ = t.tikvStoreKeyPrefix ++ u := by
    cases end_ with
    | none => exact ⟨endKey, rfl⟩
    | some b => exact ⟨b, rfl⟩
  obtain ⟨u, hu⟩ := hu
  have hsorted : (c.store.filter
      (fun e => bytesLt e.1 (upperKey t.tikvStoreKeyPrefix end_))).reverse.Pairwise
      (fun x y : Entry => bytesLt y.1 x.1 = true) := by
    rw [List.pairwise_reverse]
    exact List.Pairwise.filter _ hs
  unfold collect
  simp only
  rw [walk_reverse _ u]
  · rw [takeWhile_eq_filter_of_pairwise (fun x y : Entry => bytesLt y.1 x.1 = true) _ _ hsorted]
    · rw [List.filter_reverse, List.filter_filter, List.map_reverse, reverseRange]
    · intro x y hxy hy
      exact bytesLe_trans hy (bytesLe_of_lt hxy)
  · intro e he
    rw [List.mem_reverse, List.mem_filter] at he
    rw [← hu]
    exact he.2
  · exact hsorted
  · intro e he
    rw [List.mem_reverse, List.mem_filter] at he
    exact hpfx e he.1
  · exact Nat.lt_succ_self _

theorem pairwise_keys_of_sorted (s : Store) (p : Entry → Bool) (hs : StoreSorted s) :
    ((s.filter p).map Prod.fst).Pairwise (fun x y => bytesLt x y = true) := by
  rw [List.pairwise_map]
  exact List.Pairwise.filter _ hs

theorem nodup_of_pairwise_lt (l : List Bytes)
    (h : l.Pairwise (fun x y => bytesLt x y = true)) : l.Nodup := by
  unfold List.Nodup
  apply List.Pairwise.imp _ h
  intro a b hab heq
  rw [heq, bytesLt_irrefl] at hab
  cases hab

/-- Claim C1, as amended. For every database, every sorted backend state and every
range with `a` and `b` non-empty, the loop over `Iterator(a, b)` reads the backend
keys `prefix ++ k` of exactly the stored keys with `a <= k < b` and `k < "~"`, in
strictly ascending byte order, each once. -/
theorem forward_iterator_yields_range_below_tilde (t : TikvDB) (c : Client) (a b : Bytes)
    (hs : StoreSorted c.store) (ha : a ≠ []) (hb : b ≠ []) :
    ∃ itr keys, (t.Iterator noFaults c (some a) (some b)).2 = Except.ok itr ∧
      collect itr = Res.ok keys ∧
      (∀ p, p ∈ keys ↔ ∃ k, p = t.getTikvKey k ∧ p ∈ c.store.map Prod.fst ∧
        bytesLe a k = true ∧ bytesLt k b = true ∧ bytesLt k endKey = true) ∧
      keys.Pairwise (fun x y => bytesLt x y = true) ∧ keys.Nodup := by
  have hne : (isEmptyBound (some a) || isEmptyBound (some b)) = false := by
    cases a <;> cases b <;> simp_all [isEmptyBound]
  obtain ⟨itr, h1, h2⟩ := forward_collect t c (some a) (some b) hs hne
  have hpw := pairwise_keys_of_sorted c.store (fun e =>
    bytesLe (lowerKey t.tikvStoreKeyPrefix (some a)) e.1 &&
      bytesLt e.1 (t.tikvStoreKeyPrefix ++ endKey) &&
      belowEnd t.tikvStoreKeyPrefix (some b) e.1) hs
  refine ⟨itr, _, h1, h2, ?_, hpw, nodup_of_pairwise_lt _ hpw⟩
  intro p
  simp only [forwardRange, lowerKey, belowEnd, List.mem_map, List.mem_filter,
    Bool.and_eq_true, TikvDB.getTikvKey]
  constructor
  · rintro ⟨e, ⟨he, ⟨hlo, hup⟩, hend⟩, rfl⟩
    obtain ⟨k, hk⟩ := prefix_of_between t.tikvStoreKeyPrefix endKey e.1
      (bytesLe_trans (bytesLe_append_self _ a) hlo) hup
    refine ⟨k, hk.symm, ⟨e, he, rfl⟩, ?_, ?_, ?_⟩
    · rw [← hk, bytesLe_append_left] at hlo; exact hlo
    · rw [← hk, bytesLt_append_left] at hend; exact hend
    · rw [← hk, bytesLt_append_left] at hup; exact hup
  · rintro ⟨k, rfl, ⟨e, he, hek⟩, hlo, hend, hup⟩
    refine ⟨e, ⟨he, ⟨?_, ?_⟩, ?_⟩, hek⟩
    · rw [hek, bytesLe_append_left]; exact hlo
    · rw [hek, bytesLt_append_left]; exact hup
    · rw [hek, bytesLt_append_left]; exact hend

/-- Claim C1 at the sample backend, for the range from `[2]` to `[5]`. -/
theorem forward_iterator_yields_range_below_tilde_witness :
    StoreSorted sampleClient.store ∧ ([2] : Bytes) ≠ [] ∧ ([5] : Bytes) ≠ [] ∧
    ∃ itr keys, (sampleDB.Iterator noFaults sampleClient (some [2]) (some [5])).2 =
        Except.ok itr ∧
      collect itr = Res.ok keys ∧
      (∀ p, p ∈ keys ↔ ∃ k, p = sampleDB.getTikvKey k ∧ p ∈ sampleClient.store.map Prod.fst ∧
        bytesLe [2] k = true ∧ bytesLt k [5] = true ∧ bytesLt k endKey = true) ∧
      keys.Pairwise (fun x y => bytesLt x y = true) ∧ keys.Nodup :=
  ⟨by decide, by decide, by decide,
    forward_iterator_yields_range_below_tilde sampleDB sampleClient [2] [5]
      (by decide) (by decide) (by decide)⟩

/-- Claim C1 fails as stated: the sample backend holds the key `a/b/~`, whose
logical key `~` lies in the range from `[2]` to `[127]`, and the loop over
`Iterator([2], [127])` ends without reading it. -/
theorem forward_iterator_misses_key_tilde :
    collectFrom (sampleDB.Iterator noFaults sampleClient (some [2]) (some [127])) =
      some (Res.ok [[97, 47, 98, 47, 2], [97, 47, 98, 47, 3], [97, 47, 98, 47, 5]]) ∧
    sampleDB.getTikvKey [126] ∈ sampleClient.store.map Prod.fst ∧
    bytesLe [2] [126] = true ∧ bytesLt [126] [127] = true := by
  decide

theorem forwardRange_eq_reverseRange (pfx : Bytes) (start end_ : Option Bytes) (s : Store)
    (hend : ∀ b, end_ = some b → bytesLe b endKey = true) :
    forwardRange pfx start end_ s = reverseRange pfx start end_ s := by
  unfold forwardRange reverseRange
  apply List.filter_congr
  intro e _
  cases end_ with
  | none => simp [belowEnd, upperKey]
  | some b =>
    simp only [belowEnd, upperKey]
    cases hlt : bytesLt e.1 (pfx ++ b) with
    | false => simp
    | true =>
      have hle : bytesLe (pfx ++ b) (pfx ++ endKey) = true := by
        rw [bytesLe_append_left]; exact hend b rfl
      simp [bytesLt_of_lt_of_le hlt hle]

/-- Claim C2, as amended. For every database, every sorted backend state that holds
no key equal to the namespace bytes, and every range whose bounds are nil or
non-empty, with `end` (when given) not above `"~"` and above some stored key of the
backend: the loop over `ReverseIterator(start, end)` reads the reverse of the
sequence that the loop over `Iterator(start, end)` reads, which is strictly
ascending. -/
theorem reverse_iterator_reverses_forward (t : TikvDB) (c : Client)
    (start end_ : Option Bytes) (hs : StoreSorted c.store)
    (hstart : start ≠ some []) (hnonempty : end_ ≠ some [])
    (hpfx : ∀ e ∈ c.store, e.1 ≠ t.tikvStoreKeyPrefix)
    (hend : ∀ b, end_ = some b → bytesLe b endKey = true ∧
      ∃ e ∈ c.store, bytesLt e.1 (t.getTikvKey b) = true) :
    ∃ fwd rev keys, (t.Iterator noFaults c start end_).2 = Except.ok fwd ∧
      (t.ReverseIterator noFaults c start end_).2 = Except.ok rev ∧
      collect fwd = Res.ok keys ∧ collect rev = Res.ok keys.reverse ∧
      keys.Pairwise (fun x y => bytesLt x y = true) := by
  have hne : (isEmptyBound start || isEmptyBound end_) = false := by
    cases h1 : isEmptyBound start
    · cases h2 : isEmptyBound end_
      · rfl
      · exact absurd ((isEmptyBound_iff _).mp h2) hnonempty
    · exact absurd ((isEmptyBound_iff _).mp h1) hstart
  obtain ⟨fwd, hf1, hf2⟩ := forward_collect t c start end_ hs hne
  have hfirst : end_ ≠ none →
      ∃ e ∈ c.store, bytesLt e.1 (upperKey t.tikvStoreKeyPrefix end_) = true := by
    intro hn
    cases end_ with
    | none => exact absurd rfl hn
    | some b => exact (hend b rfl).2
  obtain ⟨rev, hr1, hr2⟩ := reverse_collect t c start end_ hs hne hpfx hfirst
  rw [← forwardRange_eq_reverseRange _ _ _ _ (fun b hb => (hend b hb).1)] at hr2
  exact ⟨fwd, rev, _, hf1, hr1, hf2, hr2, pairwise_keys_of_sorted _ _ hs⟩

/-- Claim C2 at the sample backend, for the range from `[2]` to `[5]`. -/
theorem reverse_iterator_reverses_forward_witness :
    StoreSorted sampleClient.store ∧
    ∃ fwd rev keys, (sampleDB.Iterator noFaults sampleClient (some [2]) (some [5])).2 =
        Except.ok fwd ∧
      (sampleDB.ReverseIterator noFaults sampleClient (some [2]) (some [5])).2 =
        Except.ok rev ∧
      collect fwd = Res.ok keys ∧ collect rev = Res.ok keys.reverse ∧
      keys.Pairwise (fun x y => bytesLt x y = true) :=
  ⟨by decide,
    reverse_iterator_reverses_forward sampleDB sampleClient (some [2]) (some [5])
      (by decide) (by decide) (by decide) (by decide)
      (fun b hb => by
        cases hb
        exact ⟨by decide, ([97, 47, 98, 47, 2], [22]), by decide, by decide⟩)⟩

/-- Claim C2 fails as stated, in three ways. With `end` above `"~"` the reverse
iterator reads the stored key `a/b/~` that the forward one leaves out. With no
stored key below `end` the reverse iterator starts again from `"~"` and reads a key
that is not below `end`, while the forward one reads nothing. With a stored key
equal to the namespace bytes and `start` given, `Next` of the reverse iterator
panics where the forward loop ends normally. -/
theorem reverse_iterator_differs_from_forward :
    (collectFrom (sampleDB.Iterator noFaults sampleClient (some [2]) (some [127])) =
        some (Res.ok [[97, 47, 98, 47, 2], [97, 47, 98, 47, 3], [97, 47, 98, 47, 5]]) ∧
      collectFrom (sampleDB.ReverseIterator noFaults sampleClient (some [2]) (some [127])) =
        some (Res.ok [[97, 47, 98, 47, 126], [97, 47, 98, 47, 5], [97, 47, 98, 47, 3],
          [97, 47, 98, 47, 2]])) ∧
    (collectFrom (sampleDB.Iterator noFaults ⟨[([97, 47, 98, 47, 5], [55])], 0⟩
        (some [1]) (some [3])) = some (Res.ok []) ∧
      collectFrom (sampleDB.ReverseIterator noFaults ⟨[([97, 47, 98, 47, 5], [55])], 0⟩
        (some [1]) (some [3])) = some (Res.ok [[97, 47, 98, 47, 5]])) ∧
    (collectFrom (sampleDB.Iterator noFaults
        ⟨[([97, 47, 98, 47], [9]), ([97, 47, 98, 47, 2], [22])], 0⟩
        (some [1]) (some [3])) = some (Res.ok [[97, 47, 98, 47, 2]]) ∧
      collectFrom (sampleDB.ReverseIterator noFaults
        ⟨[([97, 47, 98, 47], [9]), ([97, 47, 98, 47, 2], [22])], 0⟩
        (some [1]) (some [3])) = some Res.panic) := by
  decide

/-! ## Keys reported by a cursor -/

theorem nextN_pfx (fuel : Nat) (itr itr2 : tikvDBIterator)
    (h : tikvDBIterator.NextN fuel itr = Res.ok itr2) : itr2.pfx = itr.pfx := by
  induction fuel generalizing itr with
  | zero => simp [tikvDBIterator.NextN] at h
  | succ n ih =>
    unfold tikvDBIterator.NextN at h
    cases hv : itr.Valid.1 with
    | false =>
      cases hp : itr.Valid with
      | mk b itr1 =>
        rw [hp] at hv h
        simp only at hv
        subst hv
        simp at h
    | true =>
      rw [valid_true_eq itr hv] at h
      simp only [Source.Next] at h
      split at h
      · simp only [Res.ok.injEq] at h
        rw [← h]
      · split at h
        · have := ih _ h
          rw [this]
        · simp only [Res.ok.injEq] at h
          rw [← h]

theorem walk_keys_prefixed (fuel : Nat) (itr : tikvDBIterator) (keys : List Bytes)
    (h : walk fuel itr = Res.ok keys) : ∀ p ∈ keys, itr.pfx <+: p := by
  induction fuel generalizing itr keys with
  | zero => simp [walk] at h
  | succ n ih =>
    cases hv : itr.Valid.1 with
    | false =>
      rw [walk_stop n itr hv] at h
      simp only [Res.ok.injEq] at h
      subst h
      simp
    | true =>
      cases hn : itr.Next with
      | ok itr2 =>
        rw [walk_step n itr itr2 hv hn] at h
        cases hw : walk n itr2 with
        | ok rest =>
          rw [hw] at h
          simp only [Res.ok.injEq] at h
          subst h
          intro p hp
          rcases List.mem_cons.mp hp with hp | hp
          · rw [hp]; exact (valid_carries_pfx itr hv).1
          · have := ih itr2 rest hw p hp
            rw [nextN_pfx _ itr itr2 hn] at this
            exact this
        | panic => rw [hw] at h; simp at h
        | outOfFuel => rw [hw] at h; simp at h
      | panic =>
        unfold walk at h
        rw [valid_true_eq itr hv] at h
        simp [key_of_valid itr hv, hn] at h
      | outOfFuel =>
        unfold walk at h
        rw [valid_true_eq itr hv] at h
        simp [key_of_valid itr hv, hn] at h

theorem newTikvDBIterator_pfx (txn : KVTxn) (f : Faults) (pfx : Bytes)
    (start end_ : Option Bytes) (isReverse : Bool) (itr : tikvDBIterator)
    (h : newTikvDBIterator txn f pfx start end_ isReverse = Except.ok itr) : itr.pfx = pfx := by
  unfold newTikvDBIterator at h
  simp only at h
  repeat' split at h
  all_goals first
    | (simp only [Except.ok.injEq] at h; rw [← h])
    | simp at h

theorem iterator_pfx (t : TikvDB) (f : Faults) (c : Client) (start end_ : Option Bytes)
    (itr : tikvDBIterator)
    (h : (t.Iterator f c start end_).2 = Except.ok itr ∨
      (t.ReverseIterator f c start end_).2 = Except.ok itr) :
    itr.pfx = t.tikvStoreKeyPrefix := by
  rcases h with h | h
  · unfold TikvDB.Iterator at h
    split at h
    · simp at h
    · split at h
      · simp at h
      · simp only at h
        exact newTikvDBIterator_pfx _ _ _ _ _ _ _ h
  · unfold TikvDB.ReverseIterator at h
    split at h
    · simp at h
    · split at h
      · simp at h
      · simp only at h
        exact newTikvDBIterator_pfx _ _ _ _ _ _ _ h

theorem mem_put_self (s : Store) (k v : Bytes) : (k, v) ∈ s.put k v := by
  induction s with
  | nil => simp [Store.put]
  | cons e rest ih =>
    obtain ⟨k0, v0⟩ := e
    simp only [Store.put]
    cases bytesCompare k k0 <;> simp [ih]

/-- Claim C3, as amended. For every valid cursor `Key()` returns the current backend
key as it is, namespace bytes included; so a key stored with `Set(k, v)`, for `k`
below `"~"` (and `v` of length above zero, which the backend needs to store it), is
among the keys that the loop over `Iterator(nil, nil)` reads in the form
`prefix ++ k`, as is every stored key `prefix ++ k` with `k` below `"~"`, however it
was stored. -/
theorem key_returns_backend_key (t : TikvDB) (c : Client) (k v : Bytes)
    (hs : StoreSorted c.store) (hk : bytesLt k endKey = true) (hv : v ≠ []) :
    (∀ itr : tikvDBIterator, itr.Valid.1 = true →
      itr.Key = Res.ok itr.source.Key ∧ ∃ rest, itr.source.Key = itr.pfx ++ rest) ∧
    (∃ itr keys, (t.Iterator noFaults (t.Set noFaults c k v).1 none none).2 = Except.ok itr ∧
      collect itr = Res.ok keys ∧ t.getTikvKey k ∈ keys) ∧
    (∀ k2 : Bytes, t.getTikvKey k2 ∈ c.store.map Prod.fst → bytesLt k2 endKey = true →
      ∃ itr keys, (t.Iterator noFaults c none none).2 = Except.ok itr ∧
        collect itr = Res.ok keys ∧ t.getTikvKey k2 ∈ keys) := by
  refine ⟨?_, ?_, ?_⟩
  · intro itr hv
    obtain ⟨rest, hr⟩ := (valid_carries_pfx itr hv).1
    exact ⟨key_of_valid itr hv, rest, hr.symm⟩
  rotate_left
  · intro k2 hin hk2
    obtain ⟨itr, h1, h2⟩ := forward_collect t c none none hs rfl
    refine ⟨itr, _, h1, h2, ?_⟩
    rw [List.mem_map] at hin ⊢
    obtain ⟨e, he, hek⟩ := hin
    refine ⟨e, ?_, hek⟩
    rw [forwardRange, List.mem_filter]
    refine ⟨he, ?_⟩
    simp only [lowerKey, belowEnd, hek, TikvDB.getTikvKey, Bool.and_true, Bool.and_eq_true]
    exact ⟨bytesLe_append_self _ _, by rw [bytesLt_append_left]; exact hk2⟩
  · have hs2 : StoreSorted (t.Set noFaults c k v).1.store := by
      rw [set_store t c k v hv]; exact StoreSorted_put _ _ _ hs
    obtain ⟨itr, h1, h2⟩ := forward_collect t (t.Set noFaults c k v).1 none none hs2 rfl
    refine ⟨itr, _, h1, h2, ?_⟩
    rw [List.mem_map]
    refine ⟨(t.getTikvKey k, v), ?_, rfl⟩
    rw [forwardRange, List.mem_filter, set_store t c k v hv]
    refine ⟨mem_put_self _ _ _, ?_⟩
    simp only [lowerKey, belowEnd, TikvDB.getTikvKey, Bool.and_true, Bool.and_eq_true]
    exact ⟨bytesLe_append_self _ _, by rw [bytesLt_append_left]; exact hk⟩

/-- Claim C3 on the empty backend, for the key `[1]`. -/
theorem key_returns_backend_key_witness :
    StoreSorted emptyClient.store ∧ bytesLt [1] endKey = true ∧ ([10] : Bytes) ≠ [] ∧
    ((∀ itr : tikvDBIterator, itr.Valid.1 = true →
      itr.Key = Res.ok itr.source.Key ∧ ∃ rest, itr.source.Key = itr.pfx ++ rest) ∧
    (∃ itr keys, (sampleDB.Iterator noFaults (sampleDB.Set noFaults emptyClient [1] [10]).1
        none none).2 = Except.ok itr ∧
      collect itr = Res.ok keys ∧ sampleDB.getTikvKey [1] ∈ keys) ∧
    (∀ k2 : Bytes, sampleDB.getTikvKey k2 ∈ emptyClient.store.map Prod.fst →
      bytesLt k2 endKey = true →
      ∃ itr keys, (sampleDB.Iterator noFaults emptyClient none none).2 = Except.ok itr ∧
        collect itr = Res.ok keys ∧ sampleDB.getTikvKey k2 ∈ keys)) :=
  ⟨by decide, by decide, by decide,
    key_returns_backend_key sampleDB emptyClient [1] [10] (by decide) (by decide) (by decide)⟩

/-- Claim C3 fails as stated: after `Set([1], [10])` on the empty backend the cursor
of `Iterator(nil, nil)` is valid and `Key()` returns `a/b/` followed by `[1]`, not
the logical key `[1]`. -/
theorem key_keeps_namespace_bytes :
    firstKey (sampleDB.Iterator noFaults (sampleDB.Set noFaults emptyClient [1] [10]).1
      none none) = some (true, Res.ok [97, 47, 98, 47, 1]) ∧
    (Res.ok [97, 47, 98, 47, 1] : Res Bytes) ≠ Res.ok [1] := by
  decide

/-- Claim C9, the behaviour of the code. After `Set(nil, [9])` on the empty backend
the only stored key is the namespace `a/b/` itself; the cursors of `Iterator(nil,
nil)` and `ReverseIterator(nil, nil)` are positioned on it, `Valid()` answers `true`
and `Key()` returns it. When the same key is reached by `Next` it is skipped: the
reverse loop over a backend that also holds `a/b/` followed by `[2]` reads that key
alone, the forward loop reads both. -/
theorem first_position_exposes_namespace_key :
    (sampleDB.Set noFaults emptyClient [] [9]).1.store = [(sampleDB.tikvStoreKeyPrefix, [9])] ∧
    firstKey (sampleDB.Iterator noFaults (sampleDB.Set noFaults emptyClient [] [9]).1
      none none) = some (true, Res.ok sampleDB.tikvStoreKeyPrefix) ∧
    firstKey (sampleDB.ReverseIterator noFaults (sampleDB.Set noFaults emptyClient [] [9]).1
      none none) = some (true, Res.ok sampleDB.tikvStoreKeyPrefix) ∧
    collectFrom (sampleDB.ReverseIterator noFaults
      ⟨[([97, 47, 98, 47], [9]), ([97, 47, 98, 47, 2], [22])], 0⟩ none none) =
      some (Res.ok [[97, 47, 98, 47, 2]]) ∧
    collectFrom (sampleDB.Iterator noFaults
      ⟨[([97, 47, 98, 47], [9]), ([97, 47, 98, 47, 2], [22])], 0⟩ none none) =
      some (Res.ok [[97, 47, 98, 47], [97, 47, 98, 47, 2]]) := by
  decide

/-! ## Isolation of namespaces -/

theorem getTikvKey_ne (t1 t2 : TikvDB)
    (h12 : ¬ t1.tikvStoreKeyPrefix <+: t2.tikvStoreKeyPrefix)
    (h21 : ¬ t2.tikvStoreKeyPrefix <+: t1.tikvStoreKeyPrefix) (k k2 : Bytes) :
    t2.getTikvKey k2 ≠ t1.getTikvKey k := by
  intro heq
  have hp1 : t1.tikvStoreKeyPrefix <+: t1.getTikvKey k := ⟨k, rfl⟩
  have hp2 : t2.tikvStoreKeyPrefix <+: t1.getTikvKey k := ⟨k2, heq⟩
  rcases List.prefix_or_prefix_of_prefix hp1 hp2 with h | h
  · exact h12 h
  · exact h21 h

theorem buildBatch_keys (t : TikvDB) (ops : List BatchOp) :
    ∀ kv ∈ (buildBatch t ops).writes, ∃ k, kv.key = t.getTikvKey k := by
  have hgen : ∀ (b : tikvDBBatch), b.db = t →
      (∀ kv ∈ b.writes, ∃ k, kv.key = t.getTikvKey k) →
      ∀ kv ∈ (ops.foldl (fun b op =>
        match op.2 with
        | some v => (b.Set op.1 v).1
        | none => (b.Delete op.1).1) b).writes, ∃ k, kv.key = t.getTikvKey k := by
    induction ops with
    | nil => intro b _ hb; exact hb
    | cons op rest ih =>
      intro b hdb hb
      rw [List.foldl_cons]
      apply ih
      · cases op.2 <;> simp [tikvDBBatch.Set, tikvDBBatch.Delete, hdb]
      · intro kv hkv
        cases h2 : op.2 with
        | none =>
          simp only [h2, tikvDBBatch.Delete, List.mem_append, List.mem_singleton] at hkv
          rcases hkv with hkv | hkv
          · exact hb kv hkv
          · exact ⟨op.1, by rw [hkv, hdb]⟩
        | some v =>
          simp only [h2, tikvDBBatch.Set, List.mem_append, List.mem_singleton] at hkv
          rcases hkv with hkv | hkv
          · exact hb kv hkv
          · exact ⟨op.1, by rw [hkv, hdb]⟩
  exact hgen t.NewBatch rfl (by simp [TikvDB.NewBatch, newTikvDBBatch])

theorem lookup_foldl_apply_other (q : Bytes) (muts : List Mutation) (s : Store)
    (h : ∀ m ∈ muts, m.1 ≠ q) : (muts.foldl Store.apply s).lookup q = s.lookup q := by
  induction muts generalizing s with
  | nil => rfl
  | cons m rest ih =>
    rw [List.foldl_cons, ih _ (fun m2 hm2 => h m2 (List.mem_cons_of_mem _ hm2))]
    have hm : m.1 ≠ q := h m (List.mem_cons_self _ _)
    unfold Store.apply
    cases m.2 with
    | none => exact lookup_remove_other s m.1 q (fun h2 => hm h2.symm)
    | some v => exact lookup_put_other s m.1 v q (fun h2 => hm h2.symm)

/-- Claim C8, as amended. For two databases of which neither key prefix is a prefix
of the other, sharing one backend: a `Set` or a successful batch write through the
first changes no answer of `Get` or `Has` of the second, and no key of the form that
the first writes is ever read by the loop over an `Iterator` or `ReverseIterator` of
the second, whatever the backend holds. -/
theorem namespaces_with_unrelated_prefixes_are_isolated (t1 t2 : TikvDB)
    (h12 : ¬ t1.tikvStoreKeyPrefix <+: t2.tikvStoreKeyPrefix)
    (h21 : ¬ t2.tikvStoreKeyPrefix <+: t1.tikvStoreKeyPrefix) :
    (∀ (c : Client) (k v k2 : Bytes),
      (t2.Get noFaults (t1.Set noFaults c k v).1 k2).2 = (t2.Get noFaults c k2).2 ∧
      (t2.Has noFaults (t1.Set noFaults c k v).1 k2).2 = (t2.Has noFaults c k2).2) ∧
    (∀ (ops : List BatchOp) (sync : Bool) (c c2 : Client) (k2 : Bytes),
      (buildBatch t1 ops).write noFaults c sync = (c2, none) →
      (t2.Get noFaults c2 k2).2 = (t2.Get noFaults c k2).2 ∧
      (t2.Has noFaults c2 k2).2 = (t2.Has noFaults c k2).2) ∧
    (∀ (f : Faults) (c : Client) (start end_ : Option Bytes) (itr : tikvDBIterator)
      (keys : List Bytes),
      ((t2.Iterator f c start end_).2 = Except.ok itr ∨
        (t2.ReverseIterator f c start end_).2 = Except.ok itr) →
      collect itr = Res.ok keys → ∀ k, t1.getTikvKey k ∉ keys) := by
  refine ⟨?_, ?_, ?_⟩
  · intro c k v k2
    have hl : (c.store.put (t1.getTikvKey k) v).lookup (t2.getTikvKey k2) =
        c.store.lookup (t2.getTikvKey k2) :=
      lookup_put_other _ _ _ _ (getTikvKey_ne t1 t2 h12 h21 k k2)
    by_cases hv : v = []
    · subst hv
      rw [get_eq, get_eq, has_eq, has_eq, set_store_nil]
      exact ⟨rfl, rfl⟩
    · rw [get_eq, get_eq, has_eq, has_eq, set_store t1 c k v hv, hl]
      exact ⟨rfl, rfl⟩
  · intro ops sync c c2 k2 hw
    have hst := write_store _ _ _ _ _ hw
    have hl : c2.store.lookup (t2.getTikvKey k2) = c.store.lookup (t2.getTikvKey k2) := by
      rw [hst]
      apply lookup_foldl_apply_other
      intro m hm
      rw [List.mem_map] at hm
      obtain ⟨kv, hkv, rfl⟩ := hm
      obtain ⟨k, hk⟩ := buildBatch_keys t1 ops kv hkv
      simp only [keyvalue.toMutation, hk]
      exact (getTikvKey_ne t1 t2 h12 h21 k k2).symm
    rw [get_eq, get_eq, has_eq, has_eq, hl]
    exact ⟨rfl, rfl⟩
  · intro f c start end_ itr keys hitr hcol k hmem
    have hp := walk_keys_prefixed _ itr keys hcol _ hmem
    rw [iterator_pfx t2 f c start end_ itr hitr] at hp
    have hp1 : t1.tikvStoreKeyPrefix <+: t1.getTikvKey k := ⟨k, rfl⟩
    rcases List.prefix_or_prefix_of_prefix hp1 hp with h | h
    · exact h12 h
    · exact h21 h

/-- Claim C8 for the databases of the key prefixes `a/b/` and `a/c/`. -/
theorem namespaces_with_unrelated_prefixes_are_isolated_witness :
    (¬ sampleDB.tikvStoreKeyPrefix <+: otherDB.tikvStoreKeyPrefix) ∧
    (¬ otherDB.tikvStoreKeyPrefix <+: sampleDB.tikvStoreKeyPrefix) ∧
    ((∀ (c : Client) (k v k2 : Bytes),
      (otherDB.Get noFaults (sampleDB.Set noFaults c k v).1 k2).2 =
        (otherDB.Get noFaults c k2).2 ∧
      (otherDB.Has noFaults (sampleDB.Set noFaults c k v).1 k2).2 =
        (otherDB.Has noFaults c k2).2) ∧
    (∀ (ops : List BatchOp) (sync : Bool) (c c2 : Client) (k2 : Bytes),
      (buildBatch sampleDB ops).write noFaults c sync = (c2, none) →
      (otherDB.Get noFaults c2 k2).2 = (otherDB.Get noFaults c k2).2 ∧
      (otherDB.Has noFaults c2 k2).2 = (otherDB.Has noFaults c k2).2) ∧
    (∀ (f : Faults) (c : Client) (start end_ : Option Bytes) (itr : tikvDBIterator)
      (keys : List Bytes),
      ((otherDB.Iterator f c start end_).2 = Except.ok itr ∨
        (otherDB.ReverseIterator f c start end_).2 = Except.ok itr) →
      collect itr = Res.ok keys → ∀ k, sampleDB.getTikvKey k ∉ keys)) :=
  ⟨by decide, by decide,
    namespaces_with_unrelated_prefixes_are_isolated sampleDB otherDB (by decide) (by decide)⟩

/-- Claim C8 fails as stated: the namespaces of directory `a` with name `b/c` and of
directory `a/b` with name `c` are distinct and share the key prefix `a/b/c/`; a key
that the first writes with `Set` or a batch is returned by `Get`, reported by `Has`
and read by the iterators of the second. -/
theorem namespaces_sharing_key_bytes_leak :
    nestedNameDB ≠ nestedDirDB ∧
    (nestedDirDB.Get noFaults emptyClient [1]).2 = (none, some Error.notFound) ∧
    (nestedDirDB.Get noFaults (nestedNameDB.Set noFaults emptyClient [1] [10]).1 [1]).2 =
      (some [10], none) ∧
    (nestedDirDB.Has noFaults (nestedNameDB.Set noFaults emptyClient [1] [10]).1 [1]).2 =
      (true, none) ∧
    (nestedDirDB.Get noFaults
      ((buildBatch nestedNameDB [([1], some [10])]).Write noFaults emptyClient).1 [1]).2 =
      (some [10], none) ∧
    collectFrom (nestedDirDB.Iterator noFaults
      (nestedNameDB.Set noFaults emptyClient [1] [10]).1 none none) =
      some (Res.ok [nestedNameDB.getTikvKey [1]]) ∧
    collectFrom (nestedDirDB.ReverseIterator noFaults
      (nestedNameDB.Set noFaults emptyClient [1] [10]).1 none none) =
      some (Res.ok [nestedNameDB.getTikvKey [1]]) := by
  decide

/-! ## Reuse of a batch -/

theorem replay_noFaults (log : List keyvalue) (i : Nat) (txn : KVTxn)
    (hvals : ∀ kv ∈ log, kv.delete = true ∨ kv.value ≠ []) :
    replay noFaults log i txn =
      (⟨txn.snapshot, txn.buffer ++ log.map keyvalue.toMutation⟩, none) := by
  induction log generalizing i txn with
  | nil => simp [replay]
  | cons kv rest ih =>
    have hrest : ∀ kv2 ∈ rest, kv2.delete = true ∨ kv2.value ≠ [] :=
      fun kv2 h2 => hvals kv2 (List.mem_cons_of_mem _ h2)
    by_cases hd : kv.delete = true
    · simp [replay, hd, noFaults, KVTxn.Delete, keyvalue.toMutation]
      rw [← noFaults, ih _ _ hrest]
      simp
    · have hv : kv.value ≠ [] := by
        rcases hvals kv (List.mem_cons_self _ _) with h1 | h1
        · exact absurd h1 hd
        · exact h1
      simp [replay, hd, noFaults, KVTxn.Set, keyvalue.toMutation, hv]
      rw [← noFaults, ih _ _ hrest]
      simp

theorem write_noFaults (b : tikvDBBatch) (c : Client) (sync : Bool)
    (hvals : ∀ kv ∈ b.writes, kv.delete = true ∨ kv.value ≠ []) :
    b.write noFaults c sync =
      (⟨(b.writes.map keyvalue.toMutation).foldl Store.apply c.store, c.begun + 1⟩, none) := by
  simp only [tikvDBBatch.write, Client.Begin]
  rw [show noFaults.atBegin = none from rfl]
  simp only [replay_noFaults _ _ _ hvals, KVTxn.Commit]
  rw [show noFaults.atCommit = none from rfl]
  simp

theorem write_values (b : tikvDBBatch) (f : Faults) (c c2 : Client) (sync : Bool)
    (h : b.write f c sync = (c2, none)) :
    ∀ kv ∈ b.writes, kv.delete = true ∨ kv.value ≠ [] := by
  simp only [tikvDBBatch.write, Client.Begin] at h
  cases hb : f.atBegin with
  | some code => simp [hb] at h
  | none =>
    simp only [hb] at h
    cases hr : replay f b.writes 0 ⟨c.store, []⟩ with
    | mk txn1 e =>
      rw [hr] at h
      cases e with
      | some e => simp at h
      | none => exact replay_values f b.writes 0 _ _ hr

/-- Claim C11, as amended. A successful `Write` or `WriteSync` leaves the pending
log of the batch as it is, only `Close` empties it: a second write of the same batch
without any intervening `Set` or `Delete`, on whatever state the backend is then in,
succeeds on a backend that does not fail and replays the whole log again. -/
theorem second_write_replays_log_again (b : tikvDBBatch) (f : Faults) (c c2 : Client)
    (sync : Bool) (h : b.write f c sync = (c2, none)) (c3 : Client) :
    c2.store = (b.writes.map keyvalue.toMutation).foldl Store.apply c.store ∧
    (b.write noFaults c3 sync).2 = none ∧
    (b.write noFaults c3 sync).1.store =
      (b.writes.map keyvalue.toMutation).foldl Store.apply c3.store ∧
    (∀ key, (b.write noFaults c3 sync).1.store.lookup key =
      expectedAfter c3.store b.writes key) ∧
    b.Close.1.writes = [] := by
  have hvals := write_values b f c c2 sync h
  refine ⟨write_store b f c c2 sync h, ?_, ?_, ?_, ?_⟩
  · rw [write_noFaults b c3 sync hvals]
  · rw [write_noFaults b c3 sync hvals]
  · intro key
    rw [write_noFaults b c3 sync hvals]
    exact lookup_foldl_apply key (c3.store.lookup key) b.writes c3.store none rfl
  · simp [tikvDBBatch.Close]

/-- Claim C11 at the sample batch, written to the empty backend and then to the
sample backend. -/
theorem second_write_replays_log_again_witness :
    sampleBatch.write noFaults emptyClient false = (⟨[([97, 47, 98, 47, 1], [10])], 1⟩, none) ∧
    ((⟨[([97, 47, 98, 47, 1], [10])], 1⟩ : Client).store =
      (sampleBatch.writes.map keyvalue.toMutation).foldl Store.apply emptyClient.store ∧
    (sampleBatch.write noFaults sampleClient false).2 = none ∧
    (sampleBatch.write noFaults sampleClient false).1.store =
      (sampleBatch.writes.map keyvalue.toMutation).foldl Store.apply sampleClient.store ∧
    (∀ key, (sampleBatch.write noFaults sampleClient false).1.store.lookup key =
      expectedAfter sampleClient.store sampleBatch.writes key) ∧
    sampleBatch.Close.1.writes = []) :=
  ⟨by decide,
    second_write_replays_log_again sampleBatch noFaults emptyClient
      ⟨[([97, 47, 98, 47, 1], [10])], 1⟩ false (by decide) sampleClient⟩

/-- Claim C11 fails as stated: after a successful `Write` of the sample batch the
pending log still holds its `Set`; written again after the key was deleted through
the database, with no `Set` or `Delete` on the batch in between, the batch stores the
key once more. -/
theorem write_keeps_pending_log :
    sampleBatch.Write noFaults emptyClient = (⟨[([97, 47, 98, 47, 1], [10])], 1⟩, none) ∧
    sampleBatch.writes = [⟨[97, 47, 98, 47, 1], [10], false⟩] ∧
    (sampleDB.Delete noFaults (sampleBatch.Write noFaults emptyClient).1 [1]).1.store = [] ∧
    (sampleBatch.Write noFaults
      (sampleDB.Delete noFaults (sampleBatch.Write noFaults emptyClient).1 [1]).1) =
      (⟨[([97, 47, 98, 47, 1], [10])], 3⟩, none) := by
  decide

/-- Claim C12. For every batch, whatever its pending log, `Close` returns no error
and empties the log without touching the backend (it takes no client), and a `Write`
or `WriteSync` that follows it on a backend that does not fail returns no error and
leaves every stored key and value as it was. -/
theorem write_after_close_changes_nothing (b : tikvDBBatch) (c : Client) :
    b.Close.2 = none ∧ b.Close.1.writes = [] ∧
    (b.Close.1.Write noFaults c).2 = none ∧
    (b.Close.1.Write noFaults c).1.store = c.store ∧
    (b.Close.1.WriteSync noFaults c).2 = none ∧
    (b.Close.1.WriteSync noFaults c).1.store = c.store := by
  have hw : b.Close.1.writes = [] := by simp [tikvDBBatch.Close]
  refine ⟨rfl, hw, ?_, ?_, ?_, ?_⟩ <;>
    simp [tikvDBBatch.Write, tikvDBBatch.WriteSync, write_noFaults, hw]

/-! ## Errors of the synchronous writes -/

/-- Claim C13, the behaviour of the code. When the backend fails the buffered `Set`
or `Delete` call and then accepts the commit, `SetSync` and `DeleteSync` return no
error and store nothing, for every database, state, key and value, while `Set` and
`Delete` return the error of the call; an error of `Begin` or of `Commit` is
returned by all of them. The backend fails the `Set` call of every value of length
zero: `SetSync(k, [])` returns no error and stores nothing, while `Set(k, [])`
returns the cannot-set-nil-value error. -/
theorem sync_writes_lose_data_call_error (t : TikvDB) (c : Client) (k v : Bytes)
    (code : Nat) :
    t.SetSync (dataCallFails code) c k v = (⟨c.store, c.begun + 1⟩, none) ∧
    t.DeleteSync (dataCallFails code) c k = (⟨c.store, c.begun + 1⟩, none) ∧
    (t.Set (dataCallFails code) c k v).2 = some (Error.backend code) ∧
    (t.Delete (dataCallFails code) c k).2 = some (Error.backend code) ∧
    (∀ f : Faults, f.atBegin = some code →
      (t.SetSync f c k v).2 = some (Error.backend code) ∧
      (t.DeleteSync f c k).2 = some (Error.backend code)) ∧
    (∀ f : Faults, f.atBegin = none → f.atCommit = some code →
      (t.SetSync f c k v).2 = some (Error.backend code) ∧
      (t.DeleteSync f c k).2 = some (Error.backend code)) ∧
    t.SetSync noFaults c k [] = (⟨c.store, c.begun + 1⟩, none) ∧
    (t.Set noFaults c k []).2 = some Error.cannotSetNilValue := by
  refine ⟨?_, ?_, ?_, ?_, ?_, ?_, ?_, ?_⟩
  · simp [TikvDB.SetSync, dataCallFails, Client.Begin, KVTxn.Set, KVTxn.Commit]
  · simp [TikvDB.DeleteSync, dataCallFails, Client.Begin, KVTxn.Delete, KVTxn.Commit]
  · simp [TikvDB.Set, dataCallFails, Client.Begin, KVTxn.Set]
  · simp [TikvDB.Delete, dataCallFails, Client.Begin, KVTxn.Delete]
  · intro f hb
    simp [TikvDB.SetSync, TikvDB.DeleteSync, Client.Begin, hb]
  · intro f hb hc
    simp [TikvDB.SetSync, TikvDB.DeleteSync, Client.Begin, hb, hc, KVTxn.Commit]
  · simp [TikvDB.SetSync, noFaults, Client.Begin, KVTxn.Set, KVTxn.Commit]
  · simp [TikvDB.Set, noFaults, Client.Begin, KVTxn.Set]

/-! ## The sentinel key -/

theorem count_slash_stateSuffix : stateSuffix.count slash = 1 := by decide

theorem count_slash_getTikvState (t : TikvDB) (hd : slash ∉ t.dir) (hn : slash ∉ t.name) :
    t.getTikvState.count slash = 1 := by
  unfold TikvDB.getTikvState
  rw [List.count_append, List.count_append, List.count_append, count_slash_stateSuffix,
    List.count_eq_zero_of_not_mem hd, List.count_eq_zero_of_not_mem hn]
  decide

theorem count_slash_getTikvKey (t : TikvDB) (k : Bytes) :
    2 ≤ (t.getTikvKey k).count slash := by
  unfold TikvDB.getTikvKey TikvDB.tikvStoreKeyPrefix
  simp only [List.count_append, List.count_singleton_self]
  omega

/-- Claim C14, as amended. For every `(dir, name)` in which neither `dir` nor `name`
contains the byte `/`, the byte string `dir-name/tikv.state` differs from the
physical key `prefix ++ k` of every logical key `k` of every namespace, its own
included. -/
theorem sentinel_string_is_no_physical_key (t t2 : TikvDB) (k : Bytes)
    (hd : slash ∉ t.dir) (hn : slash ∉ t.name) : t.getTikvState ≠ t2.getTikvKey k := by
  intro heq
  have h1 := count_slash_getTikvState t hd hn
  have h2 := count_slash_getTikvKey t2 k
  rw [heq] at h1
  omega

/-- Claim C14 for the sentinel of directory `a` and name `b` against the key `[1]`
of directory `a` and name `c`. -/
theorem sentinel_string_is_no_physical_key_witness :
    slash ∉ sampleDB.dir ∧ slash ∉ sampleDB.name ∧
    sampleDB.getTikvState ≠ otherDB.getTikvKey [1] :=
  ⟨by decide, by decide,
    sentinel_string_is_no_physical_key sampleDB otherDB [1] (by decide) (by decide)⟩

/-- Claim C14 fails as stated. The sentinel string `a/b-c/tikv.state` of directory
`a/b` and name `c` is the physical key of the logical key `tikv.state` in the
namespace of directory `a` and name `b-c`. Moreover the record that opening a
database stores is not under the sentinel string but under the namespace bytes
followed by it, which is the physical key of a logical key of the own namespace: a
`Delete` of that logical key through the open database removes it, and a second
open then succeeds. -/
theorem sentinel_collides_with_user_keys :
    nestedDirDB.getTikvState =
      dashNameDB.getTikvKey [116, 105, 107, 118, 46, 115, 116, 97, 116, 101] ∧
    (NewTikvDBWithOpts [98] [97] noOpenFaults emptyClient).1.store =
      [(sampleDB.getTikvKey sampleDB.getTikvState, [49])] ∧
    (sampleDB.Delete noFaults (NewTikvDBWithOpts [98] [97] noOpenFaults emptyClient).1
      sampleDB.getTikvState).1.store = [] ∧
    (NewTikvDBWithOpts [98] [97] noOpenFaults
      (sampleDB.Delete noFaults (NewTikvDBWithOpts [98] [97] noOpenFaults emptyClient).1
        sampleDB.getTikvState).1).2 = Except.ok sampleDB :=
  ⟨by decide, by decide, by decide, rfl⟩

/-! ## Faults of the cursor methods -/

theorem next_panics_of_invalid (itr : tikvDBIterator) (h : itr.Valid.1 = false) :
    itr.Next = Res.panic := by
  unfold tikvDBIterator.Next tikvDBIterator.NextN
  cases hv : itr.Valid with
  | mk b itr1 =>
    rw [hv] at h
    simp only at h
    subst h
    rfl

theorem key_value_panic_of_invalid (itr : tikvDBIterator) (h : itr.Valid.1 = false) :
    itr.Key = Res.panic ∧ itr.Value = Res.panic := by
  unfold tikvDBIterator.Key tikvDBIterator.Value
  cases hv : itr.Valid with
  | mk b itr1 =>
    rw [hv] at h
    simp only at h
    subst h
    exact ⟨rfl, rfl⟩

/-- Claim C15, the behaviour of the code. On an invalid cursor `Next`, `Key` and
`Value` panic, and on a valid one `Key` and `Value` return. But `Next` on a valid
cursor can panic: over a backend that holds `a/b/` and `a/b/2`, the cursor of
`ReverseIterator([1], [3])` stands on `a/b/2` with `Valid()` true, the step lands on
the stored key equal to the namespace bytes, `Next` calls itself, and the nested call
finds the cursor below `start` and panics. -/
theorem next_panics_on_valid_reverse_cursor :
    (∀ itr : tikvDBIterator, itr.Valid.1 = false →
      itr.Next = Res.panic ∧ itr.Key = Res.panic ∧ itr.Value = Res.panic) ∧
    (∀ itr : tikvDBIterator, itr.Valid.1 = true →
      itr.Key = Res.ok itr.source.Key ∧ itr.Value = Res.ok itr.source.Value) ∧
    firstKey (sampleDB.ReverseIterator noFaults namespaceKeyClient (some [1]) (some [3])) =
      some (true, Res.ok [97, 47, 98, 47, 2]) ∧
    firstNext (sampleDB.ReverseIterator noFaults namespaceKeyClient (some [1]) (some [3])) =
      some (true, Res.panic) := by
  refine ⟨?_, ?_, by decide, by decide⟩
  · intro itr h
    exact ⟨next_panics_of_invalid itr h, key_value_panic_of_invalid itr h⟩
  · intro itr h
    refine ⟨key_of_valid itr h, ?_⟩
    unfold tikvDBIterator.Value
    rw [valid_true_eq itr h]
    rfl

/-! ## Increment of a byte slice -/

theorem foldl_value (y : Bytes) (a : Nat) :
    y.foldl (fun acc b => acc * 256 + b.val) a = a * 256 ^ y.length + beValue y := by
  unfold beValue
  induction y using List.reverseRecOn with
  | nil => simp
  | append_singleton y b ih =>
    simp only [List.foldl_append, List.foldl_cons, List.foldl_nil, List.length_append,
      List.length_singleton, ih]
    rw [pow_succ]
    ring

theorem beValue_append (x y : Bytes) :
    beValue (x ++ y) = beValue x * 256 ^ y.length + beValue y := by
  conv => lhs; unfold beValue
  rw [List.foldl_append, foldl_value]
  rfl

theorem beValue_zeros (k : Nat) : beValue (List.replicate k (0 : Byte)) = 0 := by
  induction k with
  | zero => rfl
  | succ n ih =>
    rw [List.replicate_succ, ← List.singleton_append, beValue_append, ih]
    simp [beValue]

theorem beValue_ones (k : Nat) : beValue (List.replicate k (255 : Byte)) + 1 = 256 ^ k := by
  induction k with
  | zero => rfl
  | succ n ih =>
    rw [List.replicate_succ, ← List.singleton_append, beValue_append, List.length_replicate]
    have h1 : beValue [(255 : Byte)] = 255 := by decide
    rw [h1, pow_succ]
    omega

theorem getD_mid (init : Bytes) (b : Byte) (suf : Bytes) :
    (init ++ b :: suf).getD init.length 0 = b := by
  induction init with
  | nil => rfl
  | cons x xs ih => simpa using ih

theorem set_mid (init : Bytes) (b x : Byte) (suf : Bytes) :
    (init ++ b :: suf).set init.length x = init ++ x :: suf := by
  induction init with
  | nil => rfl
  | cons y ys ih => simp [ih]

end TmDb

namespace TmDb

theorem cpIncrLoop_overflow (pre : Bytes) (k : Nat) (h : ∀ b ∈ pre, b = 255) :
    cpIncrLoop (pre ++ List.replicate k 0) pre.length = none := by
  induction pre using List.reverseRecOn generalizing k with
  | nil => rfl
  | append_singleton init b ih =>
    have hb : b = 255 := h b (by simp)
    subst hb
    rw [List.length_append, List.length_singleton, List.append_assoc, List.singleton_append]
    unfold cpIncrLoop
    simp only [getD_mid, set_mid]
    simp only [lt_self_iff_false, if_false]
    by_cases h0 : init.length = 0
    · simp [h0]
    · simp only [h0, if_false]
      have := ih (k + 1) (fun b hb => h b (by simp [hb]))
      rw [List.replicate_succ] at this
      exact this

theorem cpIncrLoop_increment (pre : Bytes) (k : Nat) (h : ∃ b ∈ pre, b < 255) :
    ∃ r, cpIncrLoop (pre ++ List.replicate k 0) pre.length = some r ∧
      r.length = pre.length + k ∧
      beValue r = beValue (pre ++ List.replicate k 255) + 1 := by
  induction pre using List.reverseRecOn generalizing k with
  | nil => obtain ⟨b, hb, _⟩ := h; simp at hb
  | append_singleton init b ih =>
    rw [List.length_append, List.length_singleton, List.append_assoc, List.singleton_append]
    unfold cpIncrLoop
    simp only [getD_mid, set_mid]
    by_cases hlt : b < 255
    · simp only [hlt, if_true]
      refine ⟨_, rfl, by simp; omega, ?_⟩
      have hv : (b + 1).val = b.val + 1 := by
        have h1 : b.val < 255 := hlt
        rw [Fin.val_add]
        simp only [Fin.val_one]
        omega
      rw [← List.singleton_append, ← List.append_assoc, beValue_append, beValue_append,
        beValue_zeros, List.length_replicate]
      rw [List.append_assoc, ← List.append_assoc init, beValue_append (init ++ [b]),
        List.length_replicate]
      rw [beValue_append init [b]]
      have h1 : beValue [b + 1] = beValue [b] + 1 := by
        simp [beValue, hv]
      have h2 := beValue_ones k
      rw [h1]
      simp only [List.length_singleton, pow_one]
      rw [← h2]
      ring
    · simp only [hlt, if_false]
      have hb : b = 255 := by
        apply Fin.ext
        have h1 : ¬ b.val < 255 := hlt
        have h2 := b.isLt
        show b.val = 255
        omega
      subst hb
      obtain ⟨b2, hb2, hlt2⟩ := h
      have hmem : b2 ∈ init := by
        rcases List.mem_append.mp hb2 with h1 | h1
        · exact h1
        · rw [List.mem_singleton] at h1
          rw [h1] at hlt2
          exact absurd hlt2 (lt_irrefl _)
      have h0 : init.length ≠ 0 := by
        intro h0
        rw [List.length_eq_zero] at h0
        rw [h0] at hmem
        simp at hmem
      simp only [h0, if_false]
      obtain ⟨r, hr1, hr2, hr3⟩ := ih (k + 1) ⟨b2, hmem, hlt2⟩
      rw [List.replicate_succ] at hr1 hr3
      refine ⟨r, hr1, by omega, ?_⟩
      rw [hr3, List.append_assoc, List.singleton_append]

/-- Claim C16. `cpIncr` panics on an empty slice. On a non-empty slice with some
byte below `0xFF` it returns a slice of the same length whose big-endian value is
that of the argument plus one; on a non-empty slice of bytes `0xFF` only it returns
nil. The loop writes to the copy `cp(bz)` alone, so the argument keeps its bytes. -/
theorem cpIncr_adds_one (bz : Bytes) :
    (bz = [] → cpIncr bz = Res.panic) ∧
    (bz ≠ [] → (∃ b ∈ bz, b < 255) →
      ∃ ret, cpIncr bz = Res.ok (some ret) ∧ ret.length = bz.length ∧
        beValue ret = beValue bz + 1) ∧
    (bz ≠ [] → (∀ b ∈ bz, b = 255) → cpIncr bz = Res.ok none) := by
  refine ⟨?_, ?_, ?_⟩
  · intro h
    subst h
    rfl
  · intro hne h
    obtain ⟨r, hr1, hr2, hr3⟩ := cpIncrLoop_increment bz 0 h
    simp only [List.replicate_zero, List.append_nil, Nat.add_zero] at hr1 hr2 hr3
    have hl : bz.length ≠ 0 := fun h0 => hne (List.length_eq_zero.mp h0)
    exact ⟨r, by simp [cpIncr, hl, cp, hr1], hr2, hr3⟩
  · intro hne h
    have hr := cpIncrLoop_overflow bz 0 h
    simp only [List.replicate_zero, List.append_nil] at hr
    have hl : bz.length ≠ 0 := fun h0 => hne (List.length_eq_zero.mp h0)
    simp [cpIncr, hl, cp, hr]

/-! ## Keys read by the loop -/

theorem nextN_fields (fuel : Nat) (itr itr2 : tikvDBIterator)
    (h : tikvDBIterator.NextN fuel itr = Res.ok itr2) :
    itr2.start = itr.start ∧ itr2.end_ = itr.end_ ∧ itr2.isReverse = itr.isReverse ∧
      itr2.source.items <:+ itr.source.items := by
  induction fuel generalizing itr with
  | zero => simp [tikvDBIterator.NextN] at h
  | succ n ih =>
    unfold tikvDBIterator.NextN at h
    cases hv : itr.Valid.1 with
    | false =>
      cases hp : itr.Valid with
      | mk b itr1 =>
        rw [hp] at hv h
        simp only at hv
        subst hv
        simp at h
    | true =>
      rw [valid_true_eq itr hv] at h
      simp only [Source.Next] at h
      split at h
      · simp only [Res.ok.injEq] at h
        rw [← h]
        exact ⟨rfl, rfl, rfl, List.tail_suffix _⟩
      · split at h
        · have := ih _ h
          exact ⟨this.1, this.2.1, this.2.2.1, this.2.2.2.trans (List.tail_suffix _)⟩
        · simp only [Res.ok.injEq] at h
          rw [← h]
          exact ⟨rfl, rfl, rfl, List.tail_suffix _⟩

theorem source_key_mem (itr : tikvDBIterator) (h : itr.source.items ≠ []) :
    itr.source.Key ∈ itr.source.items.map Prod.fst := by
  unfold Source.Key
  cases hi : itr.source.items with
  | nil => exact absurd hi h
  | cons e rest => simp

/-- Every key that the loop reads is a key of the backend cursor, and `Valid`
answered `true` on it: it is not past the limit of the iterator. -/
theorem walk_keys_mem (fuel : Nat) (itr : tikvDBIterator) (keys : List Bytes)
    (h : walk fuel itr = Res.ok keys) :
    ∀ p ∈ keys, p ∈ itr.source.items.map Prod.fst ∧
      (itr.isReverse = true → ∀ s, itr.start = some s →
        bytesLe (itr.pfx ++ s) p = true) := by
  induction fuel generalizing itr keys with
  | zero => simp [walk] at h
  | succ n ih =>
    cases hv : itr.Valid.1 with
    | false =>
      rw [walk_stop n itr hv] at h
      simp only [Res.ok.injEq] at h
      subst h
      simp
    | true =>
      cases hn : itr.Next with
      | ok itr2 =>
        rw [walk_step n itr itr2 hv hn] at h
        cases hw : walk n itr2 with
        | ok rest =>
          rw [hw] at h
          simp only [Res.ok.injEq] at h
          subst h
          have hf := nextN_fields _ itr itr2 hn
          have hpf := nextN_pfx _ itr itr2 hn
          intro p hp
          rcases List.mem_cons.mp hp with hp | hp
          · rw [hp]
            refine ⟨source_key_mem itr (valid_carries_pfx itr hv).2, ?_⟩
            intro hr s hs
            have hpl := ((valid_iff itr).mp hv).1
            unfold tikvDBIterator.pastLimit at hpl
            simp only [hr, if_true, hs, tikvDBIterator.getTikvKey, cp] at hpl
            rw [bytesLe_eq_not_lt, hpl]
            rfl
          · obtain ⟨h1, h2⟩ := ih itr2 rest hw p hp
            refine ⟨(hf.2.2.2.map Prod.fst).subset h1, ?_⟩
            intro hr s hs
            rw [← hpf]
            exact h2 (hf.2.2.1.trans hr) s (hf.1.trans hs)
        | panic => rw [hw] at h; simp at h
        | outOfFuel => rw [hw] at h; simp at h
      | panic =>
        unfold walk at h
        rw [valid_true_eq itr hv] at h
        simp [key_of_valid itr hv, hn] at h
      | outOfFuel =>
        unfold walk at h
        rw [valid_true_eq itr hv] at h
        simp [key_of_valid itr hv, hn] at h

/-! ## The second origin of the reverse iterator -/

theorem reverseIterator_ok_bounds (t : TikvDB) (f : Faults) (c : Client)
    (start end_ : Option Bytes) (itr : tikvDBIterator)
    (h : (t.ReverseIterator f c start end_).2 = Except.ok itr) :
    (isEmptyBound start || isEmptyBound end_) = false := by
  cases hb : (isEmptyBound start || isEmptyBound end_)
  · rfl
  · simp [TikvDB.ReverseIterator, hb] at h

/-- The keys that the loop reads from a reverse iterator with `end` given, on any
backend state: below `end` and not below `start` when some stored key is below
`end`, but not below `end` when none is and the constructor starts again from the
namespace bytes followed by `~`. -/
theorem reverse_keys_by_origin (t : TikvDB) (c : Client) (start : Option Bytes) (e : Bytes)
    (itr : tikvDBIterator) (keys : List Bytes)
    (hitr : (t.ReverseIterator noFaults c start (some e)).2 = Except.ok itr)
    (hcol : collect itr = Res.ok keys) :
    ((∃ x ∈ c.store, bytesLt x.1 (t.getTikvKey e) = true) →
      ∀ p ∈ keys, bytesLt p (t.getTikvKey e) = true ∧
        ∀ s, start = some s → bytesLe (t.getTikvKey s) p = true) ∧
    ((∀ x ∈ c.store, bytesLt x.1 (t.getTikvKey e) = false) →
      ∀ p ∈ keys, bytesLe (t.getTikvKey e) p = true) := by
  have hne := reverseIterator_ok_bounds t noFaults c start (some e) itr hitr
  rw [reverseIterator_eq t c start (some e) hne] at hitr
  simp only [Except.ok.injEq] at hitr
  subst hitr
  have hmem := walk_keys_mem _ _ keys hcol
  simp only [upperKey] at hmem
  constructor
  · rintro ⟨x, hx, hlt⟩ p hp
    obtain ⟨h1, h2⟩ := hmem p hp
    have hnil : c.store.filter (fun y => bytesLt y.1 (t.tikvStoreKeyPrefix ++ e)) ≠ [] := by
      intro hn
      rw [List.filter_eq_nil_iff] at hn
      exact hn x hx hlt
    rw [if_neg hnil, List.mem_map] at h1
    obtain ⟨y, hy, rfl⟩ := h1
    rw [List.mem_reverse, List.mem_filter] at hy
    exact ⟨hy.2, fun s hs => h2 trivial s hs⟩
  · intro hall p hp
    obtain ⟨h1, _⟩ := hmem p hp
    have hnil : c.store.filter (fun y => bytesLt y.1 (t.tikvStoreKeyPrefix ++ e)) = [] := by
      rw [List.filter_eq_nil_iff]
      intro y hy hlt
      have := hall y hy
      unfold TikvDB.getTikvKey at this
      rw [this] at hlt
      cases hlt
    rw [if_pos hnil, List.mem_map] at h1
    obtain ⟨y, hy, rfl⟩ := h1
    rw [List.mem_reverse, List.mem_filter] at hy
    rw [bytesLe_eq_not_lt]
    have := hall y hy.1
    unfold TikvDB.getTikvKey at this ⊢
    rw [this]
    rfl

/-- Claim C17, the behaviour of the code. When some stored key is below
`toPhysical(end)`, every key that `ReverseIterator(start, end)` yields is below
`toPhysical(end)` and not below `toPhysical(start)`. When none is, the first backend
cursor is invalid, the iterator is created again from the namespace bytes followed
by `~`, and every key it yields is at or above `toPhysical(end)`: over a backend
that holds `a/b/5` and `a/b/7`, `ReverseIterator([1], [3])` yields both. -/
theorem reverse_fallback_yields_keys_from_end_on :
    (∀ (t : TikvDB) (c : Client) (start : Option Bytes) (e : Bytes) (itr : tikvDBIterator)
      (keys : List Bytes),
      (t.ReverseIterator noFaults c start (some e)).2 = Except.ok itr →
      collect itr = Res.ok keys →
      ((∃ x ∈ c.store, bytesLt x.1 (t.getTikvKey e) = true) →
        ∀ p ∈ keys, bytesLt p (t.getTikvKey e) = true ∧
          ∀ s, start = some s → bytesLe (t.getTikvKey s) p = true) ∧
      ((∀ x ∈ c.store, bytesLt x.1 (t.getTikvKey e) = false) →
        ∀ p ∈ keys, bytesLe (t.getTikvKey e) p = true)) ∧
    collectFrom (sampleDB.ReverseIterator noFaults highKeysClient (some [1]) (some [3])) =
      some (Res.ok [[97, 47, 98, 47, 7], [97, 47, 98, 47, 5]]) ∧
    bytesLe (sampleDB.getTikvKey [3]) [97, 47, 98, 47, 5] = true ∧
    bytesLe (sampleDB.getTikvKey [3]) [97, 47, 98, 47, 7] = true ∧
    collectFrom (sampleDB.Iterator noFaults highKeysClient (some [1]) (some [3])) =
      some (Res.ok []) :=
  ⟨fun t c start e itr keys hitr hcol => reverse_keys_by_origin t c start e itr keys hitr hcol,
    by decide, by decide, by decide, by decide⟩

/-! ## The forward iterator in full -/

theorem newTikvDBIterator_forward_eq (s : Store) (pfx : Bytes) (start end_ : Option Bytes) :
    newTikvDBIterator ⟨s, []⟩ noFaults pfx start end_ false =
      Except.ok ⟨⟨s.filter (fun e =>
        bytesLe (lowerKey pfx start) e.1 && bytesLt e.1 (pfx ++ endKey))⟩,
        pfx, start, end_, false, true, none⟩ := by
  cases start <;>
    simp [noFaults, newTikvDBIterator, KVTxn.Iter, KVTxn.view, tikvDBIterator.getTikvKey, cp,
      lowerKey]

theorem collect_forward (s : Store) (pfx : Bytes) (start end_ : Option Bytes)
    (hs : StoreSorted s) :
    collect ⟨⟨s.filter (fun e =>
        bytesLe (lowerKey pfx start) e.1 && bytesLt e.1 (pfx ++ endKey))⟩,
        pfx, start, end_, false, true, none⟩ =
      Res.ok ((forwardRange pfx start end_ s).map Prod.fst) := by
  unfold collect
  simp only
  rw [walk_forward]
  · rw [takeWhile_eq_filter_of_pairwise (fun x y : Entry => bytesLt x.1 y.1 = true)]
    · rw [List.filter_filter, forwardRange]
      congr 2
      apply List.filter_congr
      intro e _
      rw [Bool.and_comm]
    · exact List.Pairwise.filter _ hs
    · intro x y hxy hy
      exact belowEnd_mono _ _ _ _ hxy hy
  · intro e he
    rw [List.mem_filter, Bool.and_eq_true] at he
    exact prefix_of_between _ endKey e.1
      (bytesLe_trans (lowerKey_ge _ start) he.2.1) he.2.2
  · exact List.Pairwise.filter _ hs
  · exact Nat.lt_succ_self _

/-- Claim C18. For a forward iterator over a sorted backend state, the keys that the
loop reads while `Valid()` is true are exactly the stored physical keys `p` with
`lower <= p < prefix ++ "~"` and (`end` nil or `p < prefix ++ end`), where `lower`
is `prefix ++ start` or, with `start` nil, `prefix`; they come in ascending order.
So no stored key whose logical part is at or above `"~"` is read, and a stored key
equal to the prefix is read when `start` is nil (and `end` is not the empty slice). -/
theorem forward_iterator_visits_range (s : Store) (pfx : Bytes) (start end_ : Option Bytes)
    (hs : StoreSorted s) :
    ∃ itr keys, newTikvDBIterator ⟨s, []⟩ noFaults pfx start end_ false = Except.ok itr ∧
      collect itr = Res.ok keys ∧
      keys = (forwardRange pfx start end_ s).map Prod.fst ∧
      (∀ p, p ∈ keys ↔ p ∈ s.map Prod.fst ∧ bytesLe (lowerKey pfx start) p = true ∧
        bytesLt p (pfx ++ endKey) = true ∧ belowEnd pfx end_ p = true) ∧
      keys.Pairwise (fun x y => bytesLt x y = true) ∧
      (∀ k, bytesLe endKey k = true → pfx ++ k ∉ keys) ∧
      (start = none → end_ ≠ some [] → pfx ∈ s.map Prod.fst → pfx ∈ keys) := by
  have hmem : ∀ p, p ∈ (forwardRange pfx start end_ s).map Prod.fst ↔
      p ∈ s.map Prod.fst ∧ bytesLe (lowerKey pfx start) p = true ∧
        bytesLt p (pfx ++ endKey) = true ∧ belowEnd pfx end_ p = true := by
    intro p
    simp only [forwardRange, List.mem_map, List.mem_filter, Bool.and_eq_true]
    constructor
    · rintro ⟨e, ⟨he, ⟨h1, h2⟩, h3⟩, rfl⟩
      exact ⟨⟨e, he, rfl⟩, h1, h2, h3⟩
    · rintro ⟨⟨e, he, rfl⟩, h1, h2, h3⟩
      exact ⟨e, ⟨he, ⟨h1, h2⟩, h3⟩, rfl⟩
  refine ⟨_, _, newTikvDBIterator_forward_eq s pfx start end_,
    collect_forward s pfx start end_ hs, rfl, hmem, pairwise_keys_of_sorted _ _ hs, ?_, ?_⟩
  · intro k hk hin
    have h2 := ((hmem _).mp hin).2.2.1
    rw [bytesLt_append_left] at h2
    rw [bytesLe_eq_not_lt, h2] at hk
    cases hk
  · intro hstart hend hin
    rw [hmem]
    refine ⟨hin, ?_, ?_, ?_⟩
    · rw [hstart]; exact bytesLe_refl pfx
    · exact bytesLt_append_self pfx endKey (by decide)
    · cases end_ with
      | none => rfl
      | some e =>
        exact bytesLt_append_self pfx e (fun h => hend (by rw [h]))

end TmDb

namespace TmDb

/-- Claim C18 over the backend that holds `a/b/` and `a/b/2`, with nil bounds. -/
theorem forward_iterator_visits_range_witness :
    StoreSorted namespaceKeyClient.store ∧
    ∃ itr keys, newTikvDBIterator ⟨namespaceKeyClient.store, []⟩ noFaults
        sampleDB.tikvStoreKeyPrefix none none false = Except.ok itr ∧
      collect itr = Res.ok keys ∧
      keys = (forwardRange sampleDB.tikvStoreKeyPrefix none none
        namespaceKeyClient.store).map Prod.fst ∧
      (∀ p, p ∈ keys ↔ p ∈ namespaceKeyClient.store.map Prod.fst ∧
        bytesLe (lowerKey sampleDB.tikvStoreKeyPrefix none) p = true ∧
        bytesLt p (sampleDB.tikvStoreKeyPrefix ++ endKey) = true ∧
        belowEnd sampleDB.tikvStoreKeyPrefix none p = true) ∧
      keys.Pairwise (fun x y => bytesLt x y = true) ∧
      (∀ k, bytesLe endKey k = true → sampleDB.tikvStoreKeyPrefix ++ k ∉ keys) ∧
      ((none : Option Bytes) = none → (none : Option Bytes) ≠ some [] →
        sampleDB.tikvStoreKeyPrefix ∈ namespaceKeyClient.store.map Prod.fst →
        sampleDB.tikvStoreKeyPrefix ∈ keys) :=
  ⟨by decide,
    forward_iterator_visits_range namespaceKeyClient.store sampleDB.tikvStoreKeyPrefix
      none none (by decide)⟩

/-! ## The error of a forward iterator -/

theorem valid_keeps_error (itr : tikvDBIterator) (herr : itr.err = none)
    (hkeys : ∀ e ∈ itr.source.items, itr.pfx <+: e.1) :
    itr.Valid.2.err = none ∧ itr.Valid.2.source = itr.source ∧ itr.Valid.2.pfx = itr.pfx := by
  unfold tikvDBIterator.Valid
  cases hP : itr.pastLimit
  · cases hQ : (!itr.isValid || itr.err.isSome || !itr.source.Valid)
    · cases hR : itr.outOfScope
      · simp [herr]
      · exfalso
        have hne : itr.source.items ≠ [] := by
          intro hnil
          simp [Source.Valid, hnil] at hQ
        have hk : itr.pfx <+: itr.source.Key := by
          unfold Source.Key
          cases hi : itr.source.items with
          | nil => exact absurd hi hne
          | cons e rest => exact hkeys e (by rw [hi]; exact List.mem_cons_self _ _)
        unfold tikvDBIterator.outOfScope at hR
        rw [prefix_check_false hk] at hR
        cases hR
    · simp [herr]
  · simp [herr]

theorem nextN_err (fuel : Nat) (itr itr2 : tikvDBIterator)
    (h : tikvDBIterator.NextN fuel itr = Res.ok itr2) : itr2.err = itr.err := by
  induction fuel generalizing itr with
  | zero => simp [tikvDBIterator.NextN] at h
  | succ n ih =>
    unfold tikvDBIterator.NextN at h
    cases hv : itr.Valid.1 with
    | false =>
      cases hp : itr.Valid with
      | mk b itr1 =>
        rw [hp] at hv h
        simp only at hv
        subst hv
        simp at h
    | true =>
      rw [valid_true_eq itr hv] at h
      simp only [Source.Next] at h
      split at h
      · simp only [Res.ok.injEq] at h
        rw [← h]
      · split at h
        · have := ih _ h
          rw [this]
        · simp only [Res.ok.injEq] at h
          rw [← h]

theorem run_keeps_error (calls : List Call) (itr itr2 : tikvDBIterator)
    (herr : itr.err = none) (hkeys : ∀ e ∈ itr.source.items, itr.pfx <+: e.1)
    (hrun : itr.run calls = Res.ok itr2) : itr2.err = none := by
  induction calls generalizing itr with
  | nil =>
    simp only [tikvDBIterator.run, Res.ok.injEq] at hrun
    rw [← hrun]; exact herr
  | cons call rest ih =>
    have hv := valid_keeps_error itr herr hkeys
    have hvk : ∀ e ∈ itr.Valid.2.source.items, itr.Valid.2.pfx <+: e.1 := by
      rw [hv.2.1, hv.2.2]; exact hkeys
    cases call with
    | valid => exact ih _ hv.1 hvk hrun
    | next =>
      simp only [tikvDBIterator.run] at hrun
      cases hn : itr.Next with
      | ok itr3 =>
        rw [hn] at hrun
        apply ih itr3 _ _ hrun
        · rw [nextN_err _ itr itr3 hn]; exact herr
        · intro e he
          rw [nextN_pfx _ itr itr3 hn]
          exact hkeys e ((nextN_fields _ itr itr3 hn).2.2.2.subset he)
      | panic => rw [hn] at hrun; cases hrun
      | outOfFuel => rw [hn] at hrun; cases hrun
    | key =>
      simp only [tikvDBIterator.run] at hrun
      split at hrun
      · exact ih _ hv.1 hvk hrun
      · cases hrun
    | value =>
      simp only [tikvDBIterator.run] at hrun
      split at hrun
      · exact ih _ hv.1 hvk hrun
      · cases hrun

/-- Claim C19. Every key `k` with `prefix <= k < prefix ++ "~"` starts with the
prefix. So on an iterator without a recorded error whose backend cursor only returns
keys in that range, as the cursor of every forward iterator that `newTikvDBIterator`
builds does, no sequence of `Valid`, `Next`, `Key` and `Value` calls makes `Valid`
record the invalid-key error: `Error()` stays nil (the modelled backend never fails
in `Next`). -/
theorem forward_cursor_error_stays_nil (itr itr2 : tikvDBIterator) (calls : List Call)
    (herr : itr.err = none)
    (hkeys : ∀ e ∈ itr.source.items,
      bytesLe itr.pfx e.1 = true ∧ bytesLt e.1 (itr.pfx ++ endKey) = true)
    (hrun : itr.run calls = Res.ok itr2) :
    (∀ pfx k : Bytes, bytesLe pfx k = true → bytesLt k (pfx ++ endKey) = true → pfx <+: k) ∧
    itr2.Error = none ∧
    (∀ (s : Store) (pfx : Bytes) (start end_ : Option Bytes) (it it2 : tikvDBIterator),
      newTikvDBIterator ⟨s, []⟩ noFaults pfx start end_ false = Except.ok it →
      it.run calls = Res.ok it2 → it2.Error = none) := by
  refine ⟨fun pfx k h1 h2 => prefix_of_between pfx endKey k h1 h2, ?_, ?_⟩
  · exact run_keeps_error calls itr itr2 herr
      (fun e he => prefix_of_between _ endKey e.1 (hkeys e he).1 (hkeys e he).2) hrun
  · intro s pfx start end_ it it2 hnew hr
    rw [newTikvDBIterator_forward_eq] at hnew
    simp only [Except.ok.injEq] at hnew
    subst hnew
    apply run_keeps_error calls _ it2 rfl _ hr
    intro e he
    simp only [List.mem_filter, Bool.and_eq_true] at he
    exact prefix_of_between _ endKey e.1
      (bytesLe_trans (lowerKey_ge _ start) he.2.1) he.2.2

/-- Claim C19 on the cursor over the keys `a/b/` and `a/b/2`, for the calls
`Valid`, `Key`, `Next`, `Valid`, `Next`, `Valid`. -/
theorem forward_cursor_error_stays_nil_witness :
    (tikvDBIterator.run [Call.valid, Call.key, Call.next, Call.valid, Call.next, Call.valid]
      ⟨⟨namespaceKeyClient.store⟩, [97, 47, 98, 47], none, none, false, true, none⟩ =
      Res.ok ⟨⟨[]⟩, [97, 47, 98, 47], none, none, false, false, none⟩) ∧
    ((∀ pfx k : Bytes, bytesLe pfx k = true → bytesLt k (pfx ++ endKey) = true → pfx <+: k) ∧
    tikvDBIterator.Error ⟨⟨[]⟩, [97, 47, 98, 47], none, none, false, false, none⟩ = none ∧
    (∀ (s : Store) (pfx : Bytes) (start end_ : Option Bytes) (it it2 : tikvDBIterator),
      newTikvDBIterator ⟨s, []⟩ noFaults pfx start end_ false = Except.ok it →
      it.run [Call.valid, Call.key, Call.next, Call.valid, Call.next, Call.valid] =
        Res.ok it2 → it2.Error = none)) :=
  ⟨by decide,
    forward_cursor_error_stays_nil
      ⟨⟨namespaceKeyClient.store⟩, [97, 47, 98, 47], none, none, false, true, none⟩
      ⟨⟨[]⟩, [97, 47, 98, 47], none, none, false, false, none⟩
      [Call.valid, Call.key, Call.next, Call.valid, Call.next, Call.valid]
      rfl (by decide) (by decide)⟩

/-! ## The sentinel record while a database is open -/

end TmDb
